import Mathlib

/-!
# Verification of the trader data-management subsystem

A shallow embedding of `apps/lean/data_manager.py` and
`apps/lean/scripts/convert_quote_data.py`, together with proofs about the
encoding, status inspection, synchronization and format-conversion
operations.

Modelling conventions:

* Text is modelled as `List Char`; the Python string primitives used by the
  source (`split`, `splitlines`, `strip`, `isdigit`, `int(...)`, `upper`,
  `lower`) are given executable ASCII models below.
* Python floats are modelled as exact rationals (`ℚ`); `repr(float)` is
  modelled by `floatRepr`, a canonical comma-, whitespace- and newline-free
  token.  No property proved here depends on the decimal digits of a price.
* The filesystem is explicit state: a map from paths to (logical) zip
  archives, an archive being its list of entries.  Deflate compression is
  identity at this level; "byte-identical" means the stored text and entry
  list are unchanged.
* `stat()` results (file size, mtime rendering), the current date and the
  local timezone offset used by `datetime.fromtimestamp` are oracle
  parameters threaded through the definitions.
-/

/-- The scanning loop of Python `s.split(sep)`: `acc` holds the reversed
characters of the chunk being built. -/
def splitAux (sep : Char) : List Char → List Char → List (List Char)
  | [], acc => [acc.reverse]
  | c :: rest, acc =>
    if c = sep then acc.reverse :: splitAux sep rest []
    else splitAux sep rest (c :: acc)

/-- Python `s.split(sep)` for a one-character separator: always returns at
least one (possibly empty) chunk; chunks do not contain the separator. -/
def pySplit (sep : Char) (cs : List Char) : List (List Char) :=
  splitAux sep cs []

/-- The scanning loop of Python `s.splitlines()`: `acc` holds the reversed
characters of the line being built. -/
def splitlinesAux : List Char → List Char → List (List Char)
  | [], [] => []
  | [], acc => [acc.reverse]
  | '\r' :: '\n' :: rest, acc => acc.reverse :: splitlinesAux rest []
  | '\r' :: rest, acc => acc.reverse :: splitlinesAux rest []
  | '\n' :: rest, acc => acc.reverse :: splitlinesAux rest []
  | c :: rest, acc => splitlinesAux rest (c :: acc)

/-- Python `s.splitlines()`: splits on `\n`, `\r\n` and `\r`, with no trailing
empty line for a trailing terminator, and `[]` for the empty string. -/
def pySplitlines (cs : List Char) : List (List Char) :=
  splitlinesAux cs []

/-- Python `s.strip()` (ASCII whitespace). -/
def pyTrim (cs : List Char) : List Char :=
  ((cs.dropWhile Char.isWhitespace).reverse.dropWhile Char.isWhitespace).reverse

/-- Python `s.isdigit()` (ASCII): nonempty and all characters are digits. -/
def pyIsdigit (cs : List Char) : Bool :=
  !cs.isEmpty && cs.all Char.isDigit

/-- Value of a string of decimal digit characters. -/
def digitsVal (ds : List Char) : Nat :=
  ds.foldl (fun a c => a * 10 + (c.toNat - 48)) 0

/-- Python `int(s)`: strips whitespace, accepts an optional sign followed by a
nonempty run of ASCII digits; everything else raises `ValueError`, modelled as
`none`. -/
def pyInt? (cs : List Char) : Option Int :=
  let t := pyTrim cs
  if t = [] then none
  else if t.headD ' ' = '+' then
    if t.tail ≠ [] ∧ t.tail.all Char.isDigit then some (digitsVal t.tail) else none
  else if t.headD ' ' = '-' then
    if t.tail ≠ [] ∧ t.tail.all Char.isDigit then some (-(digitsVal t.tail : Int)) else none
  else if t.all Char.isDigit then some (digitsVal t) else none

/-- `line.split(',')[0]` — the text before the first comma. -/
def field0 (cs : List Char) : List Char :=
  (pySplit ',' cs).headD []

/-- Python `s.upper()` (ASCII); core `Char.toUpper` is exactly the ASCII rule. -/
def pyUpper (s : String) : String :=
  ⟨s.data.map Char.toUpper⟩

/-- Python `s.lower()` (ASCII). -/
def pyLower (s : String) : String :=
  ⟨s.data.map Char.toLower⟩

/-- Decimal digit characters of `n` (fuel-driven so that the kernel can
evaluate it), most significant first, in front of `acc`. -/
def natDigitsAux : Nat → Nat → List Char → List Char
  | 0, _, acc => acc
  | _+1, 0, acc => acc
  | fuel+1, n+1, acc =>
    natDigitsAux fuel ((n+1) / 10) (Char.ofNat (48 + (n+1) % 10) :: acc)

/-- Decimal digit characters of `n`, most significant first, in front of
`acc`; helper for `natToStr`. -/
def natDigits (n : Nat) (acc : List Char) : List Char :=
  natDigitsAux n n acc

/-- Python `str(n)` for a nonnegative integer. -/
def natToStr (n : Nat) : List Char :=
  if n = 0 then ['0'] else natDigits n []

/-- `10 ^ (number of decimal digits of n)` (fuel-driven). -/
def pow10Aux : Nat → Nat → Nat
  | 0, _ => 1
  | _+1, 0 => 1
  | fuel+1, n+1 => 10 * pow10Aux fuel ((n+1) / 10)

/-- `10 ^ (number of decimal digits of n)`, following the recursion of
`natDigits`. -/
def pow10 (n : Nat) : Nat :=
  pow10Aux n n

/-- Zero-padded two-digit rendering (`%m`, `%d`, `%H`, `%M`). -/
def pad2 (n : Nat) : List Char :=
  if n < 10 then '0' :: natToStr n else natToStr n

/-- Zero-padded four-digit rendering (`%Y`, for the years ≥ 1970 reachable
from nonnegative epochs). -/
def pad4 (n : Nat) : List Char :=
  if n < 10 then '0' :: '0' :: '0' :: natToStr n
  else if n < 100 then '0' :: '0' :: natToStr n
  else if n < 1000 then '0' :: natToStr n
  else natToStr n

/-- Proleptic-Gregorian civil date from a count of days since 1970-01-01
(Howard Hinnant's `civil_from_days`), as used by Python's `datetime`
conversions. -/
def civilFromDays (z0 : Int) : Int × Nat × Nat :=
  let z := z0 + 719468
  let era : Int := Int.fdiv z 146097
  let doe : Nat := (Int.fmod z 146097).toNat
  let yoe : Nat := (doe - doe / 1460 + doe / 36524 - doe / 146096) / 365
  let doy : Nat := doe - (365 * yoe + yoe / 4 - yoe / 100)
  let mp : Nat := (5 * doy + 2) / 153
  let d : Nat := doy - (153 * mp + 2) / 5 + 1
  let m : Nat := if mp < 10 then mp + 3 else mp - 9
  (era * 400 + yoe + (if m ≤ 2 then 1 else 0), m, d)

/-- `convert_timestamp` of `convert_quote_data.py`:
`datetime.utcfromtimestamp(ts_ms / 1000).strftime("%Y%m%d %H:%M")`. -/
def convert_timestamp (ts_ms : Int) : List Char :=
  let s := Int.fdiv ts_ms 1000
  let days := Int.fdiv s 86400
  let sod := (Int.fmod s 86400).toNat
  let ymd := civilFromDays days
  pad4 ymd.1.toNat ++ pad2 ymd.2.1 ++ pad2 ymd.2.2 ++
    ' ' :: (pad2 (sod / 3600) ++ ':' :: pad2 (sod % 3600 / 60))

/-- `datetime.fromtimestamp(ts_ms / 1000).strftime("%Y-%m-%d")` as used by
`get_symbol_status`; `tzOff` is the local-timezone offset in seconds that
`fromtimestamp` applies (`0` for UTC). -/
def fromtimestamp_date (tzOff : Int) (ts_ms : Int) : String :=
  let s := Int.fdiv ts_ms 1000 + tzOff
  let days := Int.fdiv s 86400
  let ymd := civilFromDays days
  ⟨pad4 ymd.1.toNat ++ '-' :: pad2 ymd.2.1 ++ '-' :: pad2 ymd.2.2⟩

/-- Model of `repr(float)` for the prices written by `csv.writer`: a canonical
token made of digits, `-` and `/` only.  The proofs below use only that the
token is nonempty and free of commas, whitespace and line terminators, which
is also true of Python's decimal rendering. -/
def floatRepr (q : ℚ) : List Char :=
  (if q < 0 then ['-'] else []) ++ natToStr q.num.natAbs ++
    (if q.den = 1 then [] else '/' :: natToStr q.den)

/-- A sanity check of the civil-date arithmetic at the spec's example epoch:
1700000000000 ms is 2023-11-14 22:13 UTC. -/
theorem convert_timestamp_example :
    convert_timestamp 1700000000000 = "20231114 22:13".data := by decide

/-- One OHLC candle as consumed from a Binance kline row: the source reads
`candle[0]` (open time, ms epoch) and `candle[1..4]` (O/H/L/C prices). -/
structure Candle where
  timestamp_ms : Nat
  open_price : ℚ
  high_price : ℚ
  low_price : ℚ
  close_price : ℚ
deriving DecidableEq, Repr

/-- `DataManager.SPREAD = 0.0001` (as the exact rational). -/
def SPREAD : ℚ := 1 / 10000

/-- `DataManager.DEFAULT_START_DATE`. -/
def DEFAULT_START_DATE : String := "2023-01-01"

/-- One quote row as written by `_save_to_lean_format`'s `csv.writer`:
`timestamp_ms, bidO,bidH,bidL,bidC, askO,askH,askL,askC` with
`ask = bid * (1 + SPREAD)` — nine comma-joined fields. -/
def rowChars (c : Candle) : List Char :=
  natToStr c.timestamp_ms ++
    ',' :: floatRepr c.open_price ++ ',' :: floatRepr c.high_price ++
    ',' :: floatRepr c.low_price ++ ',' :: floatRepr c.close_price ++
    ',' :: floatRepr (c.open_price * (1 + SPREAD)) ++
    ',' :: floatRepr (c.high_price * (1 + SPREAD)) ++
    ',' :: floatRepr (c.low_price * (1 + SPREAD)) ++
    ',' :: floatRepr (c.close_price * (1 + SPREAD))

/-- The CSV text `csv.writer` builds in `_save_to_lean_format`: each row is
terminated by `\r\n` (the writer's default line terminator). -/
def csvContent (data : List Candle) : List Char :=
  (data.map (fun c => rowChars c ++ ['\r', '\n'])).flatten

/-- One entry of a zip archive: entry name and decoded text. -/
structure ZipEntry where
  name : String
  content : List Char
deriving DecidableEq, Repr

/-- A zip archive is its ordered entry list (compression is identity at this
level of modelling). -/
abbrev Archive := List ZipEntry

/-- The filesystem: a map from paths to archives. -/
abbrev FS := String → Option Archive

/-- The archive path for a symbol: `<data_path>/<symbol_lower>_quote.zip`
(with `data_path = <lean_path>/data/crypto/binance/daily` in the source). -/
def dataPath (root : String) (symbol : String) : String :=
  root ++ "/" ++ pyLower symbol ++ "_quote.zip"

/-- The `SymbolStatus` dataclass of `data_manager.py`. -/
structure SymbolStatus where
  symbol : String
  available : Bool
  file_path : Option String := none
  file_size : Nat := 0
  candles_count : Nat := 0
  start_date : Option String := none
  end_date : Option String := none
  last_updated : Option String := none
deriving DecidableEq, Repr

/-- The `try` body of `get_symbol_status`: read the first entry, split the
stripped content on `\n`, count lines and parse the first field of the first
and last lines with `int(...)`.  `none` models a raised exception (empty
`namelist()` or a `ValueError` from `int`). -/
def inspectArchive (tzOff : Int) (a : Archive) : Option (Nat × Option String × Option String) :=
  match a with
  | [] => none
  | e :: _ =>
    let lines := pySplit '\n' (pyTrim e.content)
    if lines = [] then some (lines.length, none, none)
    else
      match pyInt? (field0 (lines.headD [])), pyInt? (field0 (lines.getLastD [])) with
      | some first_ts, some last_ts =>
        some (lines.length, some (fromtimestamp_date tzOff first_ts),
          some (fromtimestamp_date tzOff last_ts))
      | _, _ => none

/-- `DataManager.get_symbol_status`.  `stSize` and `stMtime` stand for the
`stat()` results of the archive file; `tzOff` is the local timezone offset
used by `datetime.fromtimestamp`. -/
def get_symbol_status (fs : FS) (root : String) (symbol : String)
    (stSize : Nat) (stMtime : String) (tzOff : Int) : SymbolStatus :=
  let zip_file := dataPath root symbol
  match fs zip_file with
  | none => { symbol := pyUpper symbol, available := false }
  | some a =>
    match inspectArchive tzOff a with
    | none => { symbol := pyUpper symbol, available := false }
    | some (candles_count, start_date, end_date) =>
      { symbol := pyUpper symbol
        available := true
        file_path := some zip_file
        file_size := stSize
        candles_count := candles_count
        start_date := start_date
        end_date := end_date
        last_updated := some stMtime }

/-- `DataManager._save_to_lean_format`: no write for empty data; otherwise the
archive at the symbol's path is replaced wholesale by a fresh zip whose sole
entry `<symbol_lower>.csv` holds the legacy-format CSV text. -/
def save_to_lean_format (fs : FS) (root : String) (data : List Candle)
    (symbol : String) : FS :=
  if data = [] then fs
  else
    let zip_path := dataPath root symbol
    let csv_filename := pyLower symbol ++ ".csv"
    fun q => if q = zip_path then some [⟨csv_filename, csvContent data⟩] else fs q

/-- The pagination loop of `_download_binance_klines` (and of
`download_binance_klines` in `download_binance_data.py`), driven by fuel so
that it is executable without a progress precondition.  `page cur` models the
decoded JSON response for a request with `startTime = cur` (a transport error
that breaks the loop is modelled as an empty page). -/
def downloadKlinesFuel (page : Nat → List Candle) : Nat → Nat → Nat → List Candle
  | 0, _, _ => []
  | fuel+1, current_ts, end_ts =>
    if current_ts < end_ts then
      match page current_ts with
      | [] => []
      | c :: cs =>
        (c :: cs) ++ downloadKlinesFuel page fuel
          (((c :: cs).getLast (List.cons_ne_nil c cs)).timestamp_ms + 1) end_ts
    else []

/-- `download_binance_klines` on epoch bounds: since every step advances
`current_ts` by at least one when the API honours `startTime`,
`end_ts - start_ts` rounds of fuel are enough. -/
def download_binance_klines (page : Nat → List Candle) (start_ts end_ts : Nat) :
    List Candle :=
  downloadKlinesFuel page (end_ts - start_ts) start_ts end_ts

/-- `DataManager.download_symbol`.  `fetch symbol start end` abstracts
`_download_binance_klines(symbol, "1d", start, end)`; `today` is
`datetime.now().strftime("%Y-%m-%d")`. -/
def download_symbol (fetch : String → String → String → List Candle) (fs : FS)
    (root symbol : String) (start_date? end_date? : Option String)
    (today : String) (stSize : Nat) (stMtime : String) (tzOff : Int) :
    FS × SymbolStatus :=
  let start_date := start_date?.getD DEFAULT_START_DATE
  let end_date := end_date?.getD today
  let data := fetch symbol start_date end_date
  let fs' := if data = [] then fs else save_to_lean_format fs root data symbol
  (fs', get_symbol_status fs' root symbol stSize stMtime tzOff)

/-- `DataManager.check_symbols`: partition into (available, missing), each
symbol uppercased. -/
def check_symbols (fs : FS) (root : String) (symbols : List String) :
    List String × List String :=
  symbols.foldl
    (fun acc symbol =>
      if (fs (dataPath root symbol)).isSome then (acc.1 ++ [pyUpper symbol], acc.2)
      else (acc.1, acc.2 ++ [pyUpper symbol]))
    ([], [])

/-- `DataManager.download_missing`: sequentially download every symbol that
`check_symbols` reports missing, threading the filesystem state. -/
def download_missing (fetch : String → String → String → List Candle) (fs : FS)
    (root : String) (symbols : List String) (today : String) (stSize : Nat)
    (stMtime : String) (tzOff : Int) : FS × List SymbolStatus :=
  (check_symbols fs root symbols).2.foldl
    (fun acc symbol =>
      let r := download_symbol fetch acc.1 root symbol none none today stSize stMtime tzOff
      (r.1, acc.2 ++ [r.2]))
    (fs, [])

/-- `DataManager.update_symbol`: when the current status is available with a
truthy (non-`None`, nonempty) `end_date`, resume from that same date;
otherwise use the default start. -/
def update_symbol (fetch : String → String → String → List Candle) (fs : FS)
    (root symbol today : String) (stSize : Nat) (stMtime : String) (tzOff : Int) :
    FS × SymbolStatus :=
  let status := get_symbol_status fs root symbol stSize stMtime tzOff
  let start_date :=
    match status.end_date with
    | some ed => if status.available ∧ ed ≠ "" then ed else DEFAULT_START_DATE
    | none => DEFAULT_START_DATE
  download_symbol fetch fs root symbol (some start_date) none today stSize stMtime tzOff

/-- `DataManager.update_all`: `update_symbol` over the enumerated symbols in
order, threading the filesystem state.  The directory scan of
`get_available_symbols` is abstracted as the input list `symbols`. -/
def update_all (fetch : String → String → String → List Candle) (fs : FS)
    (root : String) (symbols : List String) (today : String) (stSize : Nat)
    (stMtime : String) (tzOff : Int) : FS × List SymbolStatus :=
  symbols.foldl
    (fun acc symbol =>
      let r := update_symbol fetch acc.1 root symbol today stSize stMtime tzOff
      (r.1, acc.2 ++ [r.2]))
    (fs, [])

/-- Python `sep.join(xs)`. -/
def pyJoin (sep : List Char) : List (List Char) → List Char
  | [] => []
  | [x] => x
  | x :: y :: rest => x ++ sep ++ pyJoin sep (y :: rest)

/-- `convert_line` of `convert_quote_data.py`: strip, split on commas, require
at least nine fields, parse the first as an integer timestamp, and emit
`lean_date,bid1..bid4,0,ask1..ask4,0`; `none` models the dropped (logged)
row. -/
def convert_line (line : List Char) : Option (List Char) :=
  let parts := pySplit ',' (pyTrim line)
  if parts.length < 9 then none
  else
    match pyInt? (parts.headD []) with
    | none => none
    | some ts_ms =>
      let lean_date := convert_timestamp ts_ms
      let bid_data := (parts.drop 1).take 4
      let ask_data := (parts.drop 5).take 4
      some (lean_date ++ ',' :: (pyJoin [','] bid_data ++
        ',' :: '0' :: ',' :: (pyJoin [','] ask_data ++ [',', '0'])))

/-- The conversion loop body of `convert_zip_file`: keep the successful
conversions of the non-blank lines in order. -/
def convertedLines (lines : List (List Char)) : List (List Char) :=
  lines.filterMap (fun line => if pyTrim line ≠ [] then convert_line line else none)

/-- `convert_zip_file` acting on the archive: `none` means no write happened
(empty archive, already-converted skip, or nothing convertible); `some a'`
means the archive was rewritten as a fresh zip holding the single entry
`csv_name` with the converted lines joined by `\n`. -/
def convert_zip_file (a : Archive) : Option Archive :=
  match a with
  | [] => none
  | e :: _ =>
    let lines := pySplitlines e.content
    match lines with
    | [] =>
      let converted := convertedLines []
      if converted = [] then none else some [⟨e.name, pyJoin ['\n'] converted⟩]
    | l0 :: _ =>
      if ¬ pyIsdigit (field0 l0) then none
      else
        let converted := convertedLines lines
        if converted = [] then none else some [⟨e.name, pyJoin ['\n'] converted⟩]

/-- The observable archive after running `convert_zip_file` in place: either
the rewritten archive, or the untouched original when no write happened. -/
def applyConvert (a : Archive) : Archive :=
  (convert_zip_file a).getD a

/-- Modelled from the spec's words only (§3, the *current* row encoding
`dateKey, bidO,bidH,bidL,bidC, bidSize=0, askO,askH,askL,askC, askSize=0`),
for comparison with the row `_save_to_lean_format` actually writes. -/
def specCurrentRow (c : Candle) : List Char :=
  convert_timestamp c.timestamp_ms ++
    ',' :: floatRepr c.open_price ++ ',' :: floatRepr c.high_price ++
    ',' :: floatRepr c.low_price ++ ',' :: floatRepr c.close_price ++
    ',' :: '0' ::
    ',' :: floatRepr (c.open_price * (1 + SPREAD)) ++
    ',' :: floatRepr (c.high_price * (1 + SPREAD)) ++
    ',' :: floatRepr (c.low_price * (1 + SPREAD)) ++
    ',' :: floatRepr (c.close_price * (1 + SPREAD)) ++
    [',', '0']


/-! ## Lemmas about the Python string primitives -/

theorem splitAux_ne_nil (sep : Char) : ∀ (cs acc : List Char), splitAux sep cs acc ≠ [] := by
  intro cs
  induction cs with
  | nil => intro acc; simp [splitAux]
  | cons c rest ih =>
    intro acc
    simp only [splitAux]
    split
    · exact List.cons_ne_nil _ _
    · exact ih (c :: acc)

theorem pySplit_ne_nil (sep : Char) (cs : List Char) : pySplit sep cs ≠ [] :=
  splitAux_ne_nil sep cs []

theorem splitAux_of_not_mem (sep : Char) (cs : List Char) :
    ∀ acc : List Char, sep ∉ cs → splitAux sep cs acc = [acc.reverse ++ cs] := by
  induction cs with
  | nil => intro acc _; simp [splitAux]
  | cons c rest ih =>
    intro acc h
    simp only [List.mem_cons, not_or] at h
    have hcs : ¬ c = sep := fun hh => h.1 hh.symm
    simp only [splitAux, if_neg hcs]
    rw [ih (c :: acc) h.2]
    simp

theorem pySplit_of_not_mem (sep : Char) (cs : List Char) (h : sep ∉ cs) :
    pySplit sep cs = [cs] := by
  unfold pySplit
  rw [splitAux_of_not_mem sep cs [] h]
  simp

theorem splitAux_append (sep : Char) (a b : List Char) :
    ∀ acc : List Char, sep ∉ a →
      splitAux sep (a ++ sep :: b) acc = (acc.reverse ++ a) :: splitAux sep b [] := by
  induction a with
  | nil => intro acc _; simp [splitAux]
  | cons c a' ih =>
    intro acc h
    simp only [List.mem_cons, not_or] at h
    have hcs : ¬ c = sep := fun hh => h.1 hh.symm
    rw [List.cons_append]
    simp only [splitAux, if_neg hcs]
    rw [ih (c :: acc) h.2]
    simp

theorem pySplit_append (sep : Char) (a b : List Char) (h : sep ∉ a) :
    pySplit sep (a ++ sep :: b) = a :: pySplit sep b := by
  unfold pySplit
  rw [splitAux_append sep a b [] h]
  simp

theorem pySplit_pyJoin (sep : Char) (fs : List (List Char)) (h0 : fs ≠ [])
    (h : ∀ f ∈ fs, sep ∉ f) :
    pySplit sep (pyJoin [sep] fs) = fs := by
  induction fs with
  | nil => cases h0 rfl
  | cons x rest ih =>
    cases rest with
    | nil => exact pySplit_of_not_mem sep x (h x (List.mem_cons_self _ _))
    | cons y t =>
      have hj : pyJoin [sep] (x :: y :: t) = x ++ sep :: pyJoin [sep] (y :: t) := by
        simp [pyJoin]
      rw [hj, pySplit_append sep x _ (h x (List.mem_cons_self _ _)),
        ih (List.cons_ne_nil _ _) (fun f hf => h f (List.mem_cons_of_mem _ hf))]

theorem field0_append (a b : List Char) (h : (',' : Char) ∉ a) :
    field0 (a ++ ',' :: b) = a := by
  simp [field0, pySplit_append ',' a b h]

theorem field0_of_not_mem (a : List Char) (h : (',' : Char) ∉ a) : field0 a = a := by
  simp [field0, pySplit_of_not_mem ',' a h]

theorem splitlinesAux_cons_other (c : Char) (rest acc : List Char)
    (h1 : c ≠ '\r') (h2 : c ≠ '\n') :
    splitlinesAux (c :: rest) acc = splitlinesAux rest (c :: acc) :=
  splitlinesAux.eq_6 acc c rest (fun _ hc _ => h1 hc) (fun hc => h1 hc) (fun hc => h2 hc)

theorem splitlinesAux_noterm (cs : List Char) :
    ∀ acc : List Char, (∀ c ∈ cs, c ≠ '\r' ∧ c ≠ '\n') → acc ≠ [] ∨ cs ≠ [] →
      splitlinesAux cs acc = [acc.reverse ++ cs] := by
  induction cs with
  | nil =>
    intro acc _ hne
    rcases hne with hne | hne
    · cases acc with
      | nil => cases hne rfl
      | cons a acc' => simp [splitlinesAux]
    · cases hne rfl
  | cons c rest ih =>
    intro acc h _
    have hc := h c (List.mem_cons_self _ _)
    rw [splitlinesAux_cons_other c rest acc hc.1 hc.2,
      ih (c :: acc) (fun x hx => h x (List.mem_cons_of_mem _ hx)) (Or.inl (List.cons_ne_nil _ _))]
    simp

theorem splitlinesAux_append_nl (a b : List Char) :
    ∀ acc : List Char, (∀ c ∈ a, c ≠ '\r' ∧ c ≠ '\n') →
      splitlinesAux (a ++ '\n' :: b) acc = (acc.reverse ++ a) :: splitlinesAux b [] := by
  induction a with
  | nil => intro acc _; simp [splitlinesAux]
  | cons c a' ih =>
    intro acc h
    have hc := h c (List.mem_cons_self _ _)
    rw [List.cons_append, splitlinesAux_cons_other c _ acc hc.1 hc.2,
      ih (c :: acc) (fun x hx => h x (List.mem_cons_of_mem _ hx))]
    simp

theorem splitlinesAux_append_crlf (a b : List Char) :
    ∀ acc : List Char, (∀ c ∈ a, c ≠ '\r' ∧ c ≠ '\n') →
      splitlinesAux (a ++ '\r' :: '\n' :: b) acc = (acc.reverse ++ a) :: splitlinesAux b [] := by
  induction a with
  | nil => intro acc _; simp [splitlinesAux]
  | cons c a' ih =>
    intro acc h
    have hc := h c (List.mem_cons_self _ _)
    rw [List.cons_append, splitlinesAux_cons_other c _ acc hc.1 hc.2,
      ih (c :: acc) (fun x hx => h x (List.mem_cons_of_mem _ hx))]
    simp

theorem pySplitlines_noterm (cs : List Char) (hne : cs ≠ [])
    (h : ∀ c ∈ cs, c ≠ '\r' ∧ c ≠ '\n') : pySplitlines cs = [cs] := by
  unfold pySplitlines
  rw [splitlinesAux_noterm cs [] h (Or.inr hne)]
  simp

theorem pySplitlines_append_nl (a b : List Char) (h : ∀ c ∈ a, c ≠ '\r' ∧ c ≠ '\n') :
    pySplitlines (a ++ '\n' :: b) = a :: pySplitlines b := by
  unfold pySplitlines
  rw [splitlinesAux_append_nl a b [] h]
  simp

theorem pySplitlines_append_crlf (a b : List Char) (h : ∀ c ∈ a, c ≠ '\r' ∧ c ≠ '\n') :
    pySplitlines (a ++ '\r' :: '\n' :: b) = a :: pySplitlines b := by
  unfold pySplitlines
  rw [splitlinesAux_append_crlf a b [] h]
  simp

theorem pySplitlines_pyJoin (xs : List (List Char)) (hne : xs ≠ [])
    (h : ∀ x ∈ xs, x ≠ [] ∧ ∀ c ∈ x, c ≠ '\r' ∧ c ≠ '\n') :
    pySplitlines (pyJoin ['\n'] xs) = xs := by
  induction xs with
  | nil => cases hne rfl
  | cons x rest ih =>
    cases rest with
    | nil =>
      exact pySplitlines_noterm x (h x (List.mem_cons_self _ _)).1
        (h x (List.mem_cons_self _ _)).2
    | cons y t =>
      have hj : pyJoin ['\n'] (x :: y :: t) = x ++ '\n' :: pyJoin ['\n'] (y :: t) := by
        simp [pyJoin]
      rw [hj, pySplitlines_append_nl _ _ (h x (List.mem_cons_self _ _)).2,
        ih (List.cons_ne_nil _ _) (fun f hf => h f (List.mem_cons_of_mem _ hf))]

theorem pySplitlines_crlf_rows (rows : List (List Char)) (hne : rows ≠ [])
    (h : ∀ x ∈ rows, ∀ c ∈ x, c ≠ '\r' ∧ c ≠ '\n') :
    pySplitlines ((rows.map (fun r => r ++ ['\r', '\n'])).flatten) = rows := by
  induction rows with
  | nil => cases hne rfl
  | cons x rest ih =>
    cases rest with
    | nil =>
      show pySplitlines (x ++ ['\r', '\n'] ++ []) = [x]
      rw [List.append_nil]
      have hx : x ++ ['\r', '\n'] = x ++ '\r' :: '\n' :: ([] : List Char) := rfl
      rw [hx, pySplitlines_append_crlf x [] (h x (List.mem_cons_self _ _))]
      rfl
    | cons y t =>
      show pySplitlines (x ++ ['\r', '\n'] ++ _) = _
      rw [List.append_assoc]
      have hx : (['\r', '\n'] : List Char) ++
            ((List.map (fun r => r ++ ['\r', '\n']) (y :: t)).flatten)
          = '\r' :: '\n' :: ((List.map (fun r => r ++ ['\r', '\n']) (y :: t)).flatten) := rfl
      rw [hx, pySplitlines_append_crlf x _ (h x (List.mem_cons_self _ _)),
        ih (List.cons_ne_nil _ _) (fun f hf => h f (List.mem_cons_of_mem _ hf))]

theorem dropWhile_ws_eq_self (l : List Char) (h : ∀ c ∈ l, ¬ c.isWhitespace = true) :
    l.dropWhile Char.isWhitespace = l := by
  cases l with
  | nil => rfl
  | cons c t =>
    rw [List.dropWhile_cons, if_neg (h c (List.mem_cons_self _ _))]

theorem pyTrim_eq_self (cs : List Char) (h : ∀ c ∈ cs, ¬ c.isWhitespace = true) :
    pyTrim cs = cs := by
  unfold pyTrim
  rw [dropWhile_ws_eq_self cs h,
    dropWhile_ws_eq_self cs.reverse (fun c hc => h c (List.mem_reverse.mp hc)),
    List.reverse_reverse]

theorem pyTrim_append_crlf (X : List Char) (hne : X ≠ [])
    (hfront : X.dropWhile Char.isWhitespace = X)
    (hback : X.reverse.dropWhile Char.isWhitespace = X.reverse) :
    pyTrim (X ++ ['\r', '\n']) = X := by
  unfold pyTrim
  have h1 : (X ++ ['\r', '\n']).dropWhile Char.isWhitespace = X ++ ['\r', '\n'] := by
    rw [List.dropWhile_append, hfront]
    rw [if_neg]
    simp [hne]
  rw [h1, List.reverse_append,
    show (['\r', '\n'] : List Char).reverse ++ X.reverse = '\n' :: '\r' :: X.reverse from rfl,
    List.dropWhile_cons, if_pos (by decide : ('\n' : Char).isWhitespace = true),
    List.dropWhile_cons, if_pos (by decide : ('\r' : Char).isWhitespace = true),
    hback, List.reverse_reverse]

theorem isDigit_not_ws (c : Char) (h : c.isDigit = true) : ¬ c.isWhitespace = true := by
  intro hw
  simp only [Char.isWhitespace, Bool.or_eq_true, decide_eq_true_eq] at hw
  rcases hw with ((rfl | rfl) | rfl) | rfl <;> exact absurd h (by decide)

theorem isDigit_ne_chars (c : Char) (h : c.isDigit = true) :
    c ≠ ',' ∧ c ≠ '\r' ∧ c ≠ '\n' ∧ c ≠ '+' ∧ c ≠ '-' := by
  refine ⟨?_, ?_, ?_, ?_, ?_⟩ <;> (rintro rfl; exact absurd h (by decide))

/-- The characters a legacy CSV field token may contain in this model. -/
def isTokenChar (c : Char) : Prop :=
  c.isDigit = true ∨ c = '-' ∨ c = '/'

theorem tokenChar_not_ws (c : Char) (h : isTokenChar c) : ¬ c.isWhitespace = true := by
  rcases h with h | rfl | rfl
  · exact isDigit_not_ws c h
  · decide
  · decide

theorem tokenChar_ne_comma (c : Char) (h : isTokenChar c) : c ≠ ',' := by
  rcases h with h | rfl | rfl
  · exact (isDigit_ne_chars c h).1
  · decide
  · decide

theorem tokenChar_ne_term (c : Char) (h : isTokenChar c) : c ≠ '\r' ∧ c ≠ '\n' := by
  rcases h with h | rfl | rfl
  · exact ⟨(isDigit_ne_chars c h).2.1, (isDigit_ne_chars c h).2.2.1⟩
  · exact ⟨by decide, by decide⟩
  · exact ⟨by decide, by decide⟩

theorem digitChar_spec (d : Nat) (h : d < 10) :
    (Char.ofNat (48 + d)).toNat = 48 + d ∧ (Char.ofNat (48 + d)).isDigit = true := by
  interval_cases d <;> exact ⟨by decide, by decide⟩

theorem natDigitsAux_stable : ∀ (f g n : Nat) (acc : List Char), n ≤ f → n ≤ g →
    natDigitsAux f n acc = natDigitsAux g n acc := by
  intro f
  induction f with
  | zero =>
    intro g n acc hf _
    obtain rfl := Nat.le_zero.mp hf
    cases g <;> rfl
  | succ f ih =>
    intro g n acc hf hg
    cases n with
    | zero => cases g <;> rfl
    | succ n =>
      cases g with
      | zero => omega
      | succ g =>
        have hdiv : (n+1) / 10 < n + 1 := Nat.div_lt_self (Nat.succ_pos n) (by decide)
        simp only [natDigitsAux]
        exact ih g ((n+1) / 10) _ (by omega) (by omega)

theorem pow10Aux_stable : ∀ (f g n : Nat), n ≤ f → n ≤ g →
    pow10Aux f n = pow10Aux g n := by
  intro f
  induction f with
  | zero =>
    intro g n hf _
    obtain rfl := Nat.le_zero.mp hf
    cases g <;> rfl
  | succ f ih =>
    intro g n hf hg
    cases n with
    | zero => cases g <;> rfl
    | succ n =>
      cases g with
      | zero => omega
      | succ g =>
        have hdiv : (n+1) / 10 < n + 1 := Nat.div_lt_self (Nat.succ_pos n) (by decide)
        simp only [pow10Aux]
        rw [ih g ((n+1) / 10) (by omega) (by omega)]

theorem natDigits_succ (n : Nat) (acc : List Char) :
    natDigits (n+1) acc
      = natDigits ((n+1) / 10) (Char.ofNat (48 + (n+1) % 10) :: acc) := by
  have hdiv : (n+1) / 10 < n + 1 := Nat.div_lt_self (Nat.succ_pos n) (by decide)
  show natDigitsAux (n+1) (n+1) acc = natDigitsAux ((n+1) / 10) ((n+1) / 10) _
  simp only [natDigitsAux]
  exact natDigitsAux_stable n ((n+1) / 10) ((n+1) / 10) _ (by omega) le_rfl

theorem pow10_succ (n : Nat) : pow10 (n+1) = 10 * pow10 ((n+1) / 10) := by
  have hdiv : (n+1) / 10 < n + 1 := Nat.div_lt_self (Nat.succ_pos n) (by decide)
  show pow10Aux (n+1) (n+1) = 10 * pow10Aux ((n+1) / 10) ((n+1) / 10)
  simp only [pow10Aux]
  rw [pow10Aux_stable n ((n+1) / 10) ((n+1) / 10) (by omega) le_rfl]

theorem natDigits_digits (n : Nat) : ∀ acc : List Char,
    (∀ c ∈ acc, c.isDigit = true) → ∀ c ∈ natDigits n acc, c.isDigit = true := by
  induction n using Nat.strong_induction_on with
  | _ n ih =>
    intro acc hacc
    cases n with
    | zero => exact hacc
    | succ n =>
      rw [natDigits_succ]
      have hdiv : (n+1) / 10 < n + 1 := Nat.div_lt_self (Nat.succ_pos n) (by decide)
      refine ih ((n+1) / 10) hdiv _ ?_
      intro c hc
      rcases List.mem_cons.mp hc with rfl | hc
      · exact (digitChar_spec ((n+1) % 10) (Nat.mod_lt _ (by decide))).2
      · exact hacc c hc

theorem natDigits_length (n : Nat) : ∀ acc : List Char,
    acc.length ≤ (natDigits n acc).length := by
  induction n using Nat.strong_induction_on with
  | _ n ih =>
    intro acc
    cases n with
    | zero => exact le_rfl
    | succ n =>
      rw [natDigits_succ]
      have hdiv : (n+1) / 10 < n + 1 := Nat.div_lt_self (Nat.succ_pos n) (by decide)
      calc acc.length ≤ (Char.ofNat (48 + (n+1) % 10) :: acc).length := by simp
        _ ≤ _ := ih ((n+1) / 10) hdiv _

theorem natToStr_digits (n : Nat) : ∀ c ∈ natToStr n, c.isDigit = true := by
  unfold natToStr
  split
  · intro c hc
    rcases List.mem_singleton.mp hc with rfl
    decide
  · exact natDigits_digits n [] (by simp)

theorem natToStr_ne_nil (n : Nat) : natToStr n ≠ [] := by
  unfold natToStr
  split
  · simp
  · rename_i h
    obtain ⟨m, rfl⟩ := Nat.exists_eq_succ_of_ne_zero h
    intro heq
    have hlen := natDigits_length (m+1) []
    rw [natDigits_succ] at heq
    have := natDigits_length ((m+1) / 10) [Char.ofNat (48 + (m+1) % 10)]
    rw [heq] at this
    simp at this

theorem foldl_natDigits (n : Nat) : ∀ (acc : List Char) (a : Nat),
    (natDigits n acc).foldl (fun a c => a * 10 + (c.toNat - 48)) a
      = acc.foldl (fun a c => a * 10 + (c.toNat - 48)) (a * pow10 n + n) := by
  induction n using Nat.strong_induction_on with
  | _ n ih =>
    intro acc a
    cases n with
    | zero =>
      show acc.foldl _ a = acc.foldl _ (a * pow10 0 + 0)
      norm_num [pow10, pow10Aux]
    | succ n =>
      have hdiv : (n+1) / 10 < n + 1 := Nat.div_lt_self (Nat.succ_pos n) (by decide)
      rw [natDigits_succ, ih ((n+1) / 10) hdiv]
      simp only [List.foldl_cons]
      congr 1
      rw [(digitChar_spec ((n+1) % 10) (Nat.mod_lt _ (by decide))).1, pow10_succ]
      have hmod := Nat.div_add_mod (n+1) 10
      have hmul : a * (10 * pow10 ((n+1) / 10)) = (a * pow10 ((n+1) / 10)) * 10 := by ring
      rw [hmul]
      generalize a * pow10 ((n+1) / 10) = K at *
      omega

theorem digitsVal_natToStr (n : Nat) : digitsVal (natToStr n) = n := by
  unfold natToStr
  split
  · rename_i h
    subst h
    decide
  · show digitsVal (natDigits n []) = n
    unfold digitsVal
    rw [foldl_natDigits n [] 0]
    simp

theorem pyInt_natToStr (n : Nat) : pyInt? (natToStr n) = some (n : Int) := by
  have hdig := natToStr_digits n
  have hne := natToStr_ne_nil n
  have htrim : pyTrim (natToStr n) = natToStr n :=
    pyTrim_eq_self _ (fun c hc => isDigit_not_ws c (hdig c hc))
  have hhead : (natToStr n).headD ' ' ∈ natToStr n := by
    cases hh : natToStr n with
    | nil => cases hne hh
    | cons c t => exact List.mem_cons_self _ _
  have hheadd := hdig _ hhead
  unfold pyInt?
  simp only [htrim]
  rw [if_neg hne, if_neg (by
      intro hp
      rw [hp] at hheadd
      exact absurd hheadd (by decide)),
    if_neg (by
      intro hp
      rw [hp] at hheadd
      exact absurd hheadd (by decide)),
    if_pos (List.all_eq_true.mpr (fun c hc => hdig c hc))]
  rw [show digitsVal (natToStr n) = n from digitsVal_natToStr n]

/-! ## Lemmas about rows and CSV content -/

theorem floatRepr_token (q : ℚ) : ∀ c ∈ floatRepr q, isTokenChar c := by
  intro c hc
  unfold floatRepr at hc
  rcases List.mem_append.mp hc with hc | hc
  · rcases List.mem_append.mp hc with hc | hc
    · split at hc
      · rcases List.mem_singleton.mp hc with rfl
        exact Or.inr (Or.inl rfl)
      · cases hc
    · exact Or.inl (natToStr_digits _ c hc)
  · split at hc
    · cases hc
    · rcases List.mem_cons.mp hc with rfl | hc
      · exact Or.inr (Or.inr rfl)
      · exact Or.inl (natToStr_digits _ c hc)

theorem floatRepr_ne_nil (q : ℚ) : floatRepr q ≠ [] := by
  unfold floatRepr
  intro h
  rw [List.append_eq_nil, List.append_eq_nil] at h
  exact natToStr_ne_nil _ h.1.2

theorem comma_not_mem_natToStr (n : Nat) : (',' : Char) ∉ natToStr n := by
  intro hmem
  exact (isDigit_ne_chars ',' (natToStr_digits n ',' hmem)).1 rfl

theorem comma_not_mem_floatRepr (q : ℚ) : (',' : Char) ∉ floatRepr q := by
  intro hmem
  exact tokenChar_ne_comma ',' (floatRepr_token q ',' hmem) rfl

/-- The nine comma-separated fields of a legacy quote row. -/
def rowFields (c : Candle) : List (List Char) :=
  [natToStr c.timestamp_ms, floatRepr c.open_price, floatRepr c.high_price,
   floatRepr c.low_price, floatRepr c.close_price,
   floatRepr (c.open_price * (1 + SPREAD)), floatRepr (c.high_price * (1 + SPREAD)),
   floatRepr (c.low_price * (1 + SPREAD)), floatRepr (c.close_price * (1 + SPREAD))]

theorem rowChars_eq_join (c : Candle) : rowChars c = pyJoin [','] (rowFields c) := by
  simp [rowChars, rowFields, pyJoin, List.append_assoc]

theorem rowFields_ok (c : Candle) :
    ∀ f ∈ rowFields c, f ≠ [] ∧ (',' : Char) ∉ f := by
  intro f hf
  simp only [rowFields, List.mem_cons, List.not_mem_nil, or_false] at hf
  rcases hf with rfl | rfl | rfl | rfl | rfl | rfl | rfl | rfl | rfl
  · exact ⟨natToStr_ne_nil _, comma_not_mem_natToStr _⟩
  all_goals exact ⟨floatRepr_ne_nil _, comma_not_mem_floatRepr _⟩

theorem mem_pyJoin (sep : List Char) (fs : List (List Char)) (c : Char)
    (hc : c ∈ pyJoin sep fs) : (∃ f ∈ fs, c ∈ f) ∨ c ∈ sep := by
  induction fs with
  | nil => cases hc
  | cons x rest ih =>
    cases rest with
    | nil => exact Or.inl ⟨x, List.mem_cons_self _ _, hc⟩
    | cons y t =>
      have hx : pyJoin sep (x :: y :: t) = x ++ (sep ++ pyJoin sep (y :: t)) := by
        simp [pyJoin]
      rw [hx] at hc
      rcases List.mem_append.mp hc with hc | hc
      · exact Or.inl ⟨x, List.mem_cons_self _ _, hc⟩
      · rcases List.mem_append.mp hc with hc | hc
        · exact Or.inr hc
        · rcases ih hc with ⟨f, hf, hcf⟩ | hc
          · exact Or.inl ⟨f, List.mem_cons_of_mem _ hf, hcf⟩
          · exact Or.inr hc

theorem rowChars_class (c : Candle) : ∀ ch ∈ rowChars c, isTokenChar ch ∨ ch = ',' := by
  intro ch hch
  rw [rowChars_eq_join] at hch
  rcases mem_pyJoin [','] (rowFields c) ch hch with ⟨f, hf, hchf⟩ | hch
  · simp only [rowFields, List.mem_cons, List.not_mem_nil, or_false] at hf
    rcases hf with rfl | rfl | rfl | rfl | rfl | rfl | rfl | rfl | rfl
    · exact Or.inl (Or.inl (natToStr_digits _ ch hchf))
    all_goals exact Or.inl (floatRepr_token _ ch hchf)
  · rcases List.mem_singleton.mp hch with rfl
    exact Or.inr rfl

theorem rowChars_no_term (c : Candle) : ∀ ch ∈ rowChars c, ch ≠ '\r' ∧ ch ≠ '\n' := by
  intro ch hch
  rcases rowChars_class c ch hch with h | rfl
  · exact tokenChar_ne_term ch h
  · exact ⟨by decide, by decide⟩

theorem rowChars_not_ws (c : Candle) : ∀ ch ∈ rowChars c, ¬ ch.isWhitespace = true := by
  intro ch hch
  rcases rowChars_class c ch hch with h | rfl
  · exact tokenChar_not_ws ch h
  · decide

theorem rowChars_ne_nil (c : Candle) : rowChars c ≠ [] := by
  unfold rowChars
  intro h
  simp [List.append_eq_nil] at h

theorem rowChars_decomp (c : Candle) :
    ∃ rest, rowChars c = natToStr c.timestamp_ms ++ ',' :: rest ∧
      (',' : Char) ∉ natToStr c.timestamp_ms := by
  refine ⟨pyJoin [','] ((rowFields c).tail), ?_, comma_not_mem_natToStr _⟩
  rw [rowChars_eq_join]
  simp [rowFields, pyJoin, List.append_assoc]

theorem field0_rowChars (c : Candle) : field0 (rowChars c) = natToStr c.timestamp_ms := by
  obtain ⟨rest, hr, hcm⟩ := rowChars_decomp c
  rw [hr, field0_append _ _ hcm]

theorem field0_rowChars_cr (c : Candle) :
    field0 (rowChars c ++ ['\r']) = natToStr c.timestamp_ms := by
  obtain ⟨rest, hr, hcm⟩ := rowChars_decomp c
  rw [hr, List.append_assoc, List.cons_append, field0_append _ _ hcm]

theorem dropWhile_length_le (p : Char → Bool) (l : List Char) :
    (l.dropWhile p).length ≤ l.length := by
  induction l with
  | nil => exact le_rfl
  | cons c t ih =>
    rw [List.dropWhile_cons]
    split
    · exact Nat.le_trans ih (Nat.le_succ _)
    · exact le_rfl

theorem pyJoin_ne_nil (sep : List Char) (x : List Char) (rest : List (List Char))
    (hx : x ≠ []) : pyJoin sep (x :: rest) ≠ [] := by
  cases rest with
  | nil => exact hx
  | cons y t =>
    have hj : pyJoin sep (x :: y :: t) = x ++ (sep ++ pyJoin sep (y :: t)) := by
      simp [pyJoin]
    rw [hj]
    intro hh
    rw [List.append_eq_nil] at hh
    exact hx hh.1

theorem csvContent_eq (data : List Candle) (h : data ≠ []) :
    csvContent data = pyJoin ['\r', '\n'] (data.map rowChars) ++ ['\r', '\n'] := by
  induction data with
  | nil => cases h rfl
  | cons c rest ih =>
    cases rest with
    | nil => simp [csvContent, pyJoin]
    | cons d t =>
      have hc : csvContent (c :: d :: t) = (rowChars c ++ ['\r', '\n']) ++ csvContent (d :: t) := by
        simp [csvContent]
      rw [hc, ih (List.cons_ne_nil _ _)]
      have hj : pyJoin ['\r', '\n'] ((c :: d :: t).map rowChars)
          = rowChars c ++ (['\r', '\n'] ++ pyJoin ['\r', '\n'] ((d :: t).map rowChars)) := by
        simp [pyJoin]
      rw [hj]
      simp [List.append_assoc]

theorem dropWhile_ws_append_left (a b : List Char) (ha : a ≠ [])
    (h : ∀ c ∈ a, ¬ c.isWhitespace = true) :
    (a ++ b).dropWhile Char.isWhitespace = a ++ b := by
  cases a with
  | nil => cases ha rfl
  | cons c t =>
    rw [List.cons_append, List.dropWhile_cons, if_neg (h c (List.mem_cons_self _ _))]

theorem joinRows_front (rows : List (List Char)) (hne : rows ≠ [])
    (h : ∀ r ∈ rows, r ≠ [] ∧ ∀ ch ∈ r, ¬ ch.isWhitespace = true) :
    (pyJoin ['\r', '\n'] rows).dropWhile Char.isWhitespace = pyJoin ['\r', '\n'] rows := by
  cases rows with
  | nil => cases hne rfl
  | cons x rest =>
    cases rest with
    | nil => exact dropWhile_ws_eq_self x (h x (List.mem_cons_self _ _)).2
    | cons y t =>
      have hj : pyJoin ['\r', '\n'] (x :: y :: t)
          = x ++ (['\r', '\n'] ++ pyJoin ['\r', '\n'] (y :: t)) := by
        simp [pyJoin]
      rw [hj]
      exact dropWhile_ws_append_left x _ (h x (List.mem_cons_self _ _)).1
        (h x (List.mem_cons_self _ _)).2

theorem joinRows_back (rows : List (List Char)) (hne : rows ≠ [])
    (h : ∀ r ∈ rows, r ≠ [] ∧ ∀ ch ∈ r, ¬ ch.isWhitespace = true) :
    (pyJoin ['\r', '\n'] rows).reverse.dropWhile Char.isWhitespace
      = (pyJoin ['\r', '\n'] rows).reverse := by
  induction rows with
  | nil => cases hne rfl
  | cons x rest ih =>
    cases rest with
    | nil =>
      exact dropWhile_ws_eq_self x.reverse
        (fun c hc => (h x (List.mem_cons_self _ _)).2 c (List.mem_reverse.mp hc))
    | cons y t =>
      have hj : pyJoin ['\r', '\n'] (x :: y :: t)
          = (x ++ ['\r', '\n']) ++ pyJoin ['\r', '\n'] (y :: t) := by
        simp [pyJoin, List.append_assoc]
      rw [hj, List.reverse_append]
      have hJne : pyJoin ['\r', '\n'] (y :: t) ≠ [] :=
        pyJoin_ne_nil _ y t (h y (List.mem_cons_of_mem _ (List.mem_cons_self _ _))).1
      have ihJ := ih (List.cons_ne_nil _ _)
        (fun r hr => h r (List.mem_cons_of_mem _ hr))
      cases hJr : (pyJoin ['\r', '\n'] (y :: t)).reverse with
      | nil => exact absurd (by simpa using hJr) hJne
      | cons c cs =>
        have hcws : ¬ c.isWhitespace = true := by
          intro hw
          rw [hJr, List.dropWhile_cons, if_pos hw] at ihJ
          have hlen := congrArg List.length ihJ
          have hle := dropWhile_length_le Char.isWhitespace cs
          simp at hlen
          omega
        rw [List.cons_append, List.dropWhile_cons, if_neg hcws]

theorem pyTrim_csvContent (data : List Candle) (h : data ≠ []) :
    pyTrim (csvContent data) = pyJoin ['\r', '\n'] (data.map rowChars) := by
  rw [csvContent_eq data h]
  have hrows : ∀ r ∈ data.map rowChars, r ≠ [] ∧ ∀ ch ∈ r, ¬ ch.isWhitespace = true := by
    intro r hr
    obtain ⟨c, _, rfl⟩ := List.mem_map.mp hr
    exact ⟨rowChars_ne_nil c, rowChars_not_ws c⟩
  have hne : data.map rowChars ≠ [] := by
    simpa using h
  refine pyTrim_append_crlf _ ?_ (joinRows_front _ hne hrows) (joinRows_back _ hne hrows)
  cases data with
  | nil => cases h rfl
  | cons c rest => exact pyJoin_ne_nil _ _ _ (rowChars_ne_nil c)

theorem pySplit_nl_joinRows (rows : List (List Char)) (hne : rows ≠ [])
    (h : ∀ r ∈ rows, ∀ ch ∈ r, ch ≠ '\r' ∧ ch ≠ '\n') :
    pySplit '\n' (pyJoin ['\r', '\n'] rows)
      = rows.dropLast.map (fun r => r ++ ['\r']) ++ [rows.getLast hne] := by
  induction rows with
  | nil => cases hne rfl
  | cons x rest ih =>
    cases rest with
    | nil =>
      show pySplit '\n' x = [] ++ [x]
      rw [List.nil_append]
      exact pySplit_of_not_mem '\n' x (fun hmem => (h x (List.mem_cons_self _ _) '\n' hmem).2 rfl)
    | cons y t =>
      have hj : pyJoin ['\r', '\n'] (x :: y :: t)
          = (x ++ ['\r']) ++ '\n' :: pyJoin ['\r', '\n'] (y :: t) := by
        simp [pyJoin, List.append_assoc]
      have hnm : ('\n' : Char) ∉ x ++ ['\r'] := by
        intro hmem
        rcases List.mem_append.mp hmem with hmem | hmem
        · exact (h x (List.mem_cons_self _ _) '\n' hmem).2 rfl
        · rcases List.mem_singleton.mp hmem with hh
          cases hh
      rw [hj, pySplit_append '\n' _ _ hnm,
        ih (List.cons_ne_nil _ _) (fun r hr => h r (List.mem_cons_of_mem _ hr))]
      rw [List.dropLast_cons₂, List.map_cons, List.getLast_cons (List.cons_ne_nil _ _),
        List.cons_append]

theorem inspectArchive_lines (tzOff : Int) (name : String) (content : List Char)
    (rest : List ZipEntry) (L : List (List Char)) (hL : pySplit '\n' (pyTrim content) = L) :
    inspectArchive tzOff (⟨name, content⟩ :: rest)
      = if L = [] then some (L.length, none, none)
        else
          match pyInt? (field0 (L.headD [])), pyInt? (field0 (L.getLastD [])) with
          | some first_ts, some last_ts =>
            some (L.length, some (fromtimestamp_date tzOff first_ts),
              some (fromtimestamp_date tzOff last_ts))
          | _, _ => none := by
  simp only [inspectArchive]
  rw [hL]

theorem inspect_csvContent (tzOff : Int) (name : String) (data : List Candle) (h : data ≠ []) :
    inspectArchive tzOff [⟨name, csvContent data⟩]
      = some (data.length,
          some (fromtimestamp_date tzOff ((data.head h).timestamp_ms : Int)),
          some (fromtimestamp_date tzOff ((data.getLast h).timestamp_ms : Int))) := by
  have hrows_noterm : ∀ r ∈ data.map rowChars, ∀ ch ∈ r, ch ≠ '\r' ∧ ch ≠ '\n' := by
    intro r hr
    obtain ⟨c, _, rfl⟩ := List.mem_map.mp hr
    exact rowChars_no_term c
  have hmapne : data.map rowChars ≠ [] := by simpa using h
  have hpipe : pySplit '\n' (pyTrim (csvContent data))
      = (data.map rowChars).dropLast.map (fun r => r ++ ['\r'])
        ++ [(data.map rowChars).getLast hmapne] := by
    rw [pyTrim_csvContent data h, pySplit_nl_joinRows _ hmapne hrows_noterm]
  cases data with
  | nil => cases h rfl
  | cons c rest =>
    cases rest with
    | nil =>
      simp only [List.map_cons, List.map_nil, List.dropLast_single, List.getLast_singleton,
        List.nil_append] at hpipe
      rw [inspectArchive_lines tzOff name _ [] [rowChars c] hpipe]
      have hcond : ¬ ([rowChars c] = ([] : List (List Char))) := by simp
      rw [if_neg hcond, List.headD_cons, List.getLastD_cons, List.getLastD_nil,
        field0_rowChars c, pyInt_natToStr]
      rfl
    | cons d t =>
      simp only [List.map_cons, List.dropLast_cons₂, List.cons_append] at hpipe
      rw [inspectArchive_lines tzOff name _ [] _ hpipe]
      have hcond : ¬ ((rowChars c ++ ['\r']) ::
          ((rowChars d :: List.map rowChars t).dropLast.map (fun r => r ++ ['\r'])
            ++ [(rowChars c :: rowChars d :: List.map rowChars t).getLast
                (List.cons_ne_nil _ _)]) = ([] : List (List Char))) := by simp
      have hlast : (rowChars c :: rowChars d :: List.map rowChars t).getLast
          (List.cons_ne_nil _ _) = rowChars ((c :: d :: t).getLast (List.cons_ne_nil _ _)) :=
        List.getLast_map rowChars (c :: d :: t) (List.cons_ne_nil _ _)
      rw [if_neg hcond, List.headD_cons, List.getLastD_cons, List.getLastD_concat, hlast,
        field0_rowChars_cr c, field0_rowChars _, pyInt_natToStr, pyInt_natToStr]
      show some _ = some _
      simp only [Option.some.injEq, Prod.mk.injEq]
      refine ⟨?_, ?_, ?_⟩
      · simp only [List.length_cons, List.length_append, List.length_map, List.length_dropLast]
        simp
      · rw [List.head_cons]
      · trivial

/-! ## Lemmas about the DataManager operations -/

theorem get_symbol_status_missing (fs : FS) (root symbol : String) (stSize : Nat)
    (stMtime : String) (tzOff : Int) (hfs : fs (dataPath root symbol) = none) :
    get_symbol_status fs root symbol stSize stMtime tzOff
      = { symbol := pyUpper symbol, available := false } := by
  simp only [get_symbol_status]
  rw [hfs]

theorem get_symbol_status_of_fs (fs : FS) (root symbol : String) (stSize : Nat)
    (stMtime : String) (tzOff : Int) (a : Archive)
    (hfs : fs (dataPath root symbol) = some a) :
    get_symbol_status fs root symbol stSize stMtime tzOff
      = match inspectArchive tzOff a with
        | none => { symbol := pyUpper symbol, available := false }
        | some (candles_count, start_date, end_date) =>
          { symbol := pyUpper symbol
            available := true
            file_path := some (dataPath root symbol)
            file_size := stSize
            candles_count := candles_count
            start_date := start_date
            end_date := end_date
            last_updated := some stMtime } := by
  simp only [get_symbol_status]
  rw [hfs]

theorem get_symbol_status_corrupt (fs : FS) (root symbol : String) (stSize : Nat)
    (stMtime : String) (tzOff : Int) (a : Archive)
    (hfs : fs (dataPath root symbol) = some a) (hins : inspectArchive tzOff a = none) :
    get_symbol_status fs root symbol stSize stMtime tzOff
      = { symbol := pyUpper symbol, available := false } := by
  rw [get_symbol_status_of_fs fs root symbol stSize stMtime tzOff a hfs, hins]

theorem get_symbol_status_inspected (fs : FS) (root symbol : String) (stSize : Nat)
    (stMtime : String) (tzOff : Int) (a : Archive) (cc : Nat) (sd ed : Option String)
    (hfs : fs (dataPath root symbol) = some a)
    (hins : inspectArchive tzOff a = some (cc, sd, ed)) :
    get_symbol_status fs root symbol stSize stMtime tzOff
      = { symbol := pyUpper symbol
          available := true
          file_path := some (dataPath root symbol)
          file_size := stSize
          candles_count := cc
          start_date := sd
          end_date := ed
          last_updated := some stMtime } := by
  rw [get_symbol_status_of_fs fs root symbol stSize stMtime tzOff a hfs, hins]

theorem save_at_path (fs : FS) (root : String) (data : List Candle) (symbol : String)
    (h : data ≠ []) :
    save_to_lean_format fs root data symbol (dataPath root symbol)
      = some [⟨pyLower symbol ++ ".csv", csvContent data⟩] := by
  unfold save_to_lean_format
  rw [if_neg h]
  simp

theorem save_other_path (fs : FS) (root : String) (data : List Candle) (symbol : String)
    (q : String) (hq : q ≠ dataPath root symbol) :
    save_to_lean_format fs root data symbol q = fs q := by
  unfold save_to_lean_format
  split
  · rfl
  · show (if q = dataPath root symbol then some [⟨pyLower symbol ++ ".csv", csvContent data⟩]
        else fs q) = fs q
    rw [if_neg hq]

theorem get_symbol_status_saved (fs : FS) (root symbol : String) (stSize : Nat)
    (stMtime : String) (tzOff : Int) (data : List Candle) (h : data ≠ []) :
    get_symbol_status (save_to_lean_format fs root data symbol) root symbol stSize stMtime tzOff
      = { symbol := pyUpper symbol
          available := true
          file_path := some (dataPath root symbol)
          file_size := stSize
          candles_count := data.length
          start_date := some (fromtimestamp_date tzOff ((data.head h).timestamp_ms : Int))
          end_date := some (fromtimestamp_date tzOff ((data.getLast h).timestamp_ms : Int))
          last_updated := some stMtime } :=
  get_symbol_status_inspected _ root symbol stSize stMtime tzOff _ _ _ _
    (save_at_path fs root data symbol h) (inspect_csvContent tzOff _ data h)

/-! ## Claim theorems -/

/-- C4: round trip — encoding a non-empty candle sequence with ascending unique
open times and then inspecting that symbol yields an available status whose
row count is the number of candles and whose start/end dates are the calendar
dates of the first/last candle's open time (rendered by the inspector's
`fromtimestamp` rule). -/
theorem roundtrip_encode_inspect (fs : FS) (root symbol : String) (stSize : Nat)
    (stMtime : String) (tzOff : Int) (data : List Candle) (h : data ≠ [])
    (_hasc : data.Chain' (fun a b => a.timestamp_ms < b.timestamp_ms)) :
    get_symbol_status (save_to_lean_format fs root data symbol) root symbol stSize stMtime tzOff
      = { symbol := pyUpper symbol
          available := true
          file_path := some (dataPath root symbol)
          file_size := stSize
          candles_count := data.length
          start_date := some (fromtimestamp_date tzOff ((data.head h).timestamp_ms : Int))
          end_date := some (fromtimestamp_date tzOff ((data.getLast h).timestamp_ms : Int))
          last_updated := some stMtime } :=
  get_symbol_status_saved fs root symbol stSize stMtime tzOff data h

/-- Fixture candles for the round-trip witness. -/
def wCandle1 : Candle := ⟨1700000000000, 100, 101, 99, 201/2⟩

/-- Second fixture candle, one day later. -/
def wCandle2 : Candle := ⟨1700086400000, 1, 2, 3, 4⟩

/-- Empty filesystem fixture. -/
def emptyFS : FS := fun _ => none

/-- The witness candles are strictly ascending. -/
theorem wChain :
    ([wCandle1, wCandle2] : List Candle).Chain' (fun a b => a.timestamp_ms < b.timestamp_ms) :=
  List.chain'_cons.mpr ⟨by decide, List.chain'_singleton _⟩

theorem roundtrip_encode_inspect_witness :
    ([wCandle1, wCandle2] ≠ ([] : List Candle))
    ∧ ([wCandle1, wCandle2] : List Candle).Chain' (fun a b => a.timestamp_ms < b.timestamp_ms)
    ∧ get_symbol_status (save_to_lean_format emptyFS "root" [wCandle1, wCandle2] "BTCUSDT")
        "root" "BTCUSDT" 7 "2024-01-01 00:00" 0
      = { symbol := "BTCUSDT"
          available := true
          file_path := some "root/btcusdt_quote.zip"
          file_size := 7
          candles_count := 2
          start_date := some "2023-11-14"
          end_date := some "2023-11-15"
          last_updated := some "2024-01-01 00:00" } :=
  ⟨by decide, wChain, by
    rw [roundtrip_encode_inspect emptyFS "root" "BTCUSDT" 7 "2024-01-01 00:00" 0
      [wCandle1, wCandle2] (by decide) wChain]
    decide⟩

/-- C6: status inspection never propagates an exception — a missing archive
file yields `available = false` with every derived field at its empty default,
and any parse failure while deriving row count or date bounds (empty zip,
corrupt row, non-numeric first field) yields the same `available = false`
result instead of an error. -/
theorem inspect_never_raises (fs : FS) (root symbol : String) (stSize : Nat)
    (stMtime : String) (tzOff : Int) :
    (fs (dataPath root symbol) = none →
      get_symbol_status fs root symbol stSize stMtime tzOff
        = { symbol := pyUpper symbol, available := false })
    ∧ (∀ a : Archive, fs (dataPath root symbol) = some a → inspectArchive tzOff a = none →
      get_symbol_status fs root symbol stSize stMtime tzOff
        = { symbol := pyUpper symbol, available := false }) :=
  ⟨fun h => get_symbol_status_missing fs root symbol stSize stMtime tzOff h,
   fun a h1 h2 => get_symbol_status_corrupt fs root symbol stSize stMtime tzOff a h1 h2⟩

/-- A corrupt archive fixture: the first field of the first line is not
numeric, so `int(...)` raises. -/
def corruptArchive : Archive := [⟨"ethusdt.csv", "garbage,1,2".data⟩]

/-- Filesystem fixture holding the corrupt archive at ETHUSDT's path. -/
def corruptFS : FS := fun q =>
  if q = dataPath "root" "ETHUSDT" then some corruptArchive else none

theorem inspect_never_raises_witness :
    (corruptFS (dataPath "root" "ETHUSDT") = some corruptArchive)
    ∧ inspectArchive 0 corruptArchive = none
    ∧ get_symbol_status corruptFS "root" "ETHUSDT" 3 "mt" 0
      = { symbol := pyUpper "ETHUSDT", available := false } :=
  ⟨by decide, by decide,
    (inspect_never_raises corruptFS "root" "ETHUSDT" 3 "mt" 0).2 corruptArchive
      (by decide) (by decide)⟩

/-- C3 (amended): the inspector does not branch on whether the first field is
numeric — it always parses the first field of the first and last line of the
stripped content (split on `\n`) as epoch milliseconds via `int(...)`; when
both parses succeed the status carries the derived count and date bounds, and
when the first field is not numeric (in particular for a current/date-key
encoded archive) the inspection reports `available = false`. -/
theorem inspect_parses_epoch_only (fs : FS) (root symbol : String) (stSize : Nat)
    (stMtime : String) (tzOff : Int) (name : String) (content : List Char)
    (rest : List ZipEntry) (hfs : fs (dataPath root symbol) = some (⟨name, content⟩ :: rest)) :
    (∀ first_ts last_ts : Int,
      pyInt? (field0 ((pySplit '\n' (pyTrim content)).headD [])) = some first_ts →
      pyInt? (field0 ((pySplit '\n' (pyTrim content)).getLastD [])) = some last_ts →
      get_symbol_status fs root symbol stSize stMtime tzOff
        = { symbol := pyUpper symbol
            available := true
            file_path := some (dataPath root symbol)
            file_size := stSize
            candles_count := (pySplit '\n' (pyTrim content)).length
            start_date := some (fromtimestamp_date tzOff first_ts)
            end_date := some (fromtimestamp_date tzOff last_ts)
            last_updated := some stMtime })
    ∧ (pyInt? (field0 ((pySplit '\n' (pyTrim content)).headD [])) = none →
      get_symbol_status fs root symbol stSize stMtime tzOff
        = { symbol := pyUpper symbol, available := false }) := by
  constructor
  · intro first_ts last_ts h1 h2
    refine get_symbol_status_inspected fs root symbol stSize stMtime tzOff _ _ _ _ hfs ?_
    rw [inspectArchive_lines tzOff name content rest _ rfl,
      if_neg (pySplit_ne_nil '\n' _), h1, h2]
  · intro h1
    refine get_symbol_status_corrupt fs root symbol stSize stMtime tzOff _ hfs ?_
    rw [inspectArchive_lines tzOff name content rest _ rfl,
      if_neg (pySplit_ne_nil '\n' _), h1]

/-- A well-formed archive in the *current* (date-key) encoding. -/
def currentFormatContent : List Char :=
  "20231101 00:00,100,101,99,100.5,0,100.01,101.01,99.01,100.51,0".data

/-- Filesystem fixture holding the current-format archive at BTCUSDT's path. -/
def currentFormatFS : FS := fun q =>
  if q = dataPath "root" "BTCUSDT" then some [⟨"btcusdt.csv", currentFormatContent⟩] else none

/-- C3 counterexample: the inspector has no numeric-vs-date-key branch — on a
well-formed current-format archive the `int(...)` parse of the date-key field
fails and inspection reports `available = false`, contradicting the claim that
it succeeds with `available = true`. -/
theorem inspect_current_format_counterexample :
    (currentFormatFS (dataPath "root" "BTCUSDT")
      = some [⟨"btcusdt.csv", currentFormatContent⟩])
    ∧ ¬ pyIsdigit (field0 currentFormatContent) = true
    ∧ (get_symbol_status currentFormatFS "root" "BTCUSDT" 7 "mt" 0).available = false := by
  exact ⟨by decide, by decide, by decide⟩

/-- Witness for the amended C3 theorem: a legacy two-row archive. -/
def legacyContent : List Char := "1700000000000,1,2\n1700086400000,3,4".data

/-- Filesystem fixture holding the legacy archive at SOLUSDT's path. -/
def legacyFS : FS := fun q =>
  if q = dataPath "root" "SOLUSDT" then some [⟨"solusdt.csv", legacyContent⟩] else none

theorem inspect_parses_epoch_only_witness :
    (legacyFS (dataPath "root" "SOLUSDT") = some [⟨"solusdt.csv", legacyContent⟩])
    ∧ pyInt? (field0 ((pySplit '\n' (pyTrim legacyContent)).headD [])) = some 1700000000000
    ∧ pyInt? (field0 ((pySplit '\n' (pyTrim legacyContent)).getLastD [])) = some 1700086400000
    ∧ get_symbol_status legacyFS "root" "SOLUSDT" 9 "mt" 0
      = { symbol := pyUpper "SOLUSDT"
          available := true
          file_path := some (dataPath "root" "SOLUSDT")
          file_size := 9
          candles_count := (pySplit '\n' (pyTrim legacyContent)).length
          start_date := some (fromtimestamp_date 0 1700000000000)
          end_date := some (fromtimestamp_date 0 1700086400000)
          last_updated := some "mt" } :=
  ⟨by decide, by decide, by decide,
    (inspect_parses_epoch_only legacyFS "root" "SOLUSDT" 9 "mt" 0 "solusdt.csv" legacyContent []
      (by decide)).1 1700000000000 1700086400000 (by decide) (by decide)⟩

/-- C2 (amended): `_save_to_lean_format` replaces the archive at
`<root>/<symbol_lower>_quote.zip` wholesale with a fresh zip whose sole entry
`<symbol_lower>.csv` holds one CRLF-terminated row per candle in the *legacy*
nine-field encoding `epoch_ms, bidO,bidH,bidL,bidC, askO,askH,askL,askC` with
`ask = bid * (1 + SPREAD)` — not the eleven-field current encoding the claim
describes; no other path is touched. -/
theorem encode_writes_legacy_format (fs : FS) (root symbol : String)
    (data : List Candle) (h : data ≠ []) :
    (save_to_lean_format fs root data symbol (dataPath root symbol)
      = some [⟨pyLower symbol ++ ".csv", csvContent data⟩])
    ∧ (∀ q, q ≠ dataPath root symbol → save_to_lean_format fs root data symbol q = fs q)
    ∧ pySplitlines (csvContent data) = data.map rowChars
    ∧ ∀ c ∈ data, pySplit ',' (rowChars c)
        = [natToStr c.timestamp_ms,
           floatRepr c.open_price, floatRepr c.high_price,
           floatRepr c.low_price, floatRepr c.close_price,
           floatRepr (c.open_price * (1 + SPREAD)), floatRepr (c.high_price * (1 + SPREAD)),
           floatRepr (c.low_price * (1 + SPREAD)), floatRepr (c.close_price * (1 + SPREAD))] := by
  refine ⟨save_at_path fs root data symbol h,
    fun q hq => save_other_path fs root data symbol q hq, ?_, ?_⟩
  · have hmm : (data.map rowChars).map (fun r => r ++ ['\r', '\n'])
        = data.map (fun c => rowChars c ++ ['\r', '\n']) := by
      rw [List.map_map]
      rfl
    have hcc : csvContent data = ((data.map rowChars).map (fun r => r ++ ['\r', '\n'])).flatten := by
      rw [hmm]
      rfl
    rw [hcc]
    exact pySplitlines_crlf_rows (data.map rowChars) (by simpa using h)
      (fun r hr => by
        obtain ⟨c, _, rfl⟩ := List.mem_map.mp hr
        exact rowChars_no_term c)
  · intro c _
    rw [rowChars_eq_join c, pySplit_pyJoin ',' (rowFields c) (by simp [rowFields])
      (fun f hf => (rowFields_ok c f hf).2)]
    rfl

theorem encode_writes_legacy_format_witness :
    ([wCandle1] ≠ ([] : List Candle))
    ∧ (save_to_lean_format emptyFS "root" [wCandle1] "BTCUSDT" (dataPath "root" "BTCUSDT")
      = some [⟨pyLower "BTCUSDT" ++ ".csv", csvContent [wCandle1]⟩])
    ∧ (∀ q, q ≠ dataPath "root" "BTCUSDT"
        → save_to_lean_format emptyFS "root" [wCandle1] "BTCUSDT" q = emptyFS q)
    ∧ pySplitlines (csvContent [wCandle1]) = [wCandle1].map rowChars
    ∧ ∀ c ∈ [wCandle1], pySplit ',' (rowChars c)
        = [natToStr c.timestamp_ms,
           floatRepr c.open_price, floatRepr c.high_price,
           floatRepr c.low_price, floatRepr c.close_price,
           floatRepr (c.open_price * (1 + SPREAD)), floatRepr (c.high_price * (1 + SPREAD)),
           floatRepr (c.low_price * (1 + SPREAD)), floatRepr (c.close_price * (1 + SPREAD))] :=
  ⟨by decide, (encode_writes_legacy_format emptyFS "root" "BTCUSDT" [wCandle1] (by decide)).1,
    (encode_writes_legacy_format emptyFS "root" "BTCUSDT" [wCandle1] (by decide)).2.1,
    (encode_writes_legacy_format emptyFS "root" "BTCUSDT" [wCandle1] (by decide)).2.2.1,
    (encode_writes_legacy_format emptyFS "root" "BTCUSDT" [wCandle1] (by decide)).2.2.2⟩

unseal Rat.mul Rat.inv Rat.add in
/-- C2 counterexample: the row written for a concrete candle has nine
comma-separated fields with a purely numeric epoch first field — not the
eleven-field current encoding (date key, `bidSize = 0`, `askSize = 0`) that
the claim asserts; the spec-derived current row differs from it. -/
theorem encode_current_claim_counterexample :
    (pySplit ',' (rowChars wCandle1)).length = 9
    ∧ rowChars wCandle1 ≠ specCurrentRow wCandle1
    ∧ pyIsdigit (field0 (rowChars wCandle1)) = true
    ∧ (pySplit ',' (specCurrentRow wCandle1)).length = 11 :=
  ⟨by decide, by decide, by decide, by decide⟩

/-- C8: a download whose fetch returns zero candles writes nothing — the
filesystem is returned unchanged (every archive byte-identical) and the
returned status is the status of the untouched pre-existing (or absent)
archive. -/
theorem download_zero_candles_frame (fetch : String → String → String → List Candle)
    (fs : FS) (root symbol : String) (start_date? end_date? : Option String)
    (today : String) (stSize : Nat) (stMtime : String) (tzOff : Int)
    (h : fetch symbol (start_date?.getD DEFAULT_START_DATE) (end_date?.getD today) = []) :
    (download_symbol fetch fs root symbol start_date? end_date? today stSize stMtime tzOff).1
      = fs
    ∧ (download_symbol fetch fs root symbol start_date? end_date? today stSize stMtime tzOff).2
      = get_symbol_status fs root symbol stSize stMtime tzOff := by
  simp only [download_symbol]
  rw [h]
  simp

/-- A fetcher that always returns no candles. -/
def emptyFetch : String → String → String → List Candle := fun _ _ _ => []

theorem download_zero_candles_frame_witness :
    (emptyFetch "SOLUSDT" ((none : Option String).getD DEFAULT_START_DATE)
        ((none : Option String).getD "2024-06-01") = [])
    ∧ (download_symbol emptyFetch legacyFS "root" "SOLUSDT" none none "2024-06-01" 9 "mt" 0).1
      = legacyFS
    ∧ (download_symbol emptyFetch legacyFS "root" "SOLUSDT" none none "2024-06-01" 9 "mt" 0).2
      = get_symbol_status legacyFS "root" "SOLUSDT" 9 "mt" 0 :=
  ⟨rfl,
    (download_zero_candles_frame emptyFetch legacyFS "root" "SOLUSDT" none none
      "2024-06-01" 9 "mt" 0 rfl).1,
    (download_zero_candles_frame emptyFetch legacyFS "root" "SOLUSDT" none none
      "2024-06-01" 9 "mt" 0 rfl).2⟩

theorem update_symbol_resume (fetch : String → String → String → List Candle) (fs : FS)
    (root symbol today : String) (stSize : Nat) (stMtime : String) (tzOff : Int) (ed : String)
    (hav : (get_symbol_status fs root symbol stSize stMtime tzOff).available = true)
    (hed : (get_symbol_status fs root symbol stSize stMtime tzOff).end_date = some ed)
    (hne : ed ≠ "") :
    update_symbol fetch fs root symbol today stSize stMtime tzOff
      = download_symbol fetch fs root symbol (some ed) none today stSize stMtime tzOff := by
  simp only [update_symbol]
  rw [hed]
  show download_symbol fetch fs root symbol
    (some (if (get_symbol_status fs root symbol stSize stMtime tzOff).available ∧ ed ≠ ""
      then ed else DEFAULT_START_DATE)) none today stSize stMtime tzOff = _
  rw [if_pos ⟨by rw [hav], hne⟩]

theorem update_symbol_default (fetch : String → String → String → List Candle) (fs : FS)
    (root symbol today : String) (stSize : Nat) (stMtime : String) (tzOff : Int)
    (h : (get_symbol_status fs root symbol stSize stMtime tzOff).available = false
      ∨ (get_symbol_status fs root symbol stSize stMtime tzOff).end_date = none
      ∨ (get_symbol_status fs root symbol stSize stMtime tzOff).end_date = some "") :
    update_symbol fetch fs root symbol today stSize stMtime tzOff
      = download_symbol fetch fs root symbol (some DEFAULT_START_DATE) none today
          stSize stMtime tzOff := by
  simp only [update_symbol]
  rcases h with hav | hed | hed
  · cases hedc : (get_symbol_status fs root symbol stSize stMtime tzOff).end_date with
    | none => rfl
    | some ed =>
      show download_symbol fetch fs root symbol
        (some (if (get_symbol_status fs root symbol stSize stMtime tzOff).available ∧ ed ≠ ""
          then ed else DEFAULT_START_DATE)) none today stSize stMtime tzOff = _
      rw [if_neg (fun hh => by
        have hb := hh.1
        rw [hav] at hb
        exact Bool.noConfusion hb)]
  · rw [hed]
  · rw [hed]
    show download_symbol fetch fs root symbol
      (some (if (get_symbol_status fs root symbol stSize stMtime tzOff).available ∧ "" ≠ ""
        then "" else DEFAULT_START_DATE)) none today stSize stMtime tzOff = _
    rw [if_neg (fun hh => hh.2 rfl)]

theorem download_writes_fetched (fetch : String → String → String → List Candle) (fs : FS)
    (root symbol : String) (start_date? end_date? : Option String) (today : String)
    (stSize : Nat) (stMtime : String) (tzOff : Int)
    (h : fetch symbol (start_date?.getD DEFAULT_START_DATE) (end_date?.getD today) ≠ []) :
    (download_symbol fetch fs root symbol start_date? end_date? today stSize stMtime tzOff).1
        (dataPath root symbol)
      = some [⟨pyLower symbol ++ ".csv",
          csvContent (fetch symbol (start_date?.getD DEFAULT_START_DATE)
            (end_date?.getD today))⟩] := by
  simp only [download_symbol]
  rw [if_neg h]
  exact save_at_path fs root _ symbol h

/-- C1: when the current status is available with a known (truthy) `end_date`,
`update_symbol` resumes the download with `start_date` equal to that same
`end_date` (not `end_date + 1`) through today; a successful (non-empty) fetch
then replaces the archive wholesale, so it holds exactly the rows fetched for
`[old_end_date, today]` and none of the old archive's earlier rows.  When the
status is unavailable or has no usable `end_date`, `update_symbol` performs
the full default-range download starting `2023-01-01`. -/
theorem update_resumes_from_end_date (fetch : String → String → String → List Candle)
    (fs : FS) (root symbol today : String) (stSize : Nat) (stMtime : String) (tzOff : Int) :
    (∀ ed : String,
      (get_symbol_status fs root symbol stSize stMtime tzOff).available = true →
      (get_symbol_status fs root symbol stSize stMtime tzOff).end_date = some ed →
      ed ≠ "" →
      update_symbol fetch fs root symbol today stSize stMtime tzOff
        = download_symbol fetch fs root symbol (some ed) none today stSize stMtime tzOff
      ∧ (fetch symbol ed today ≠ [] →
        (update_symbol fetch fs root symbol today stSize stMtime tzOff).1 (dataPath root symbol)
          = some [⟨pyLower symbol ++ ".csv", csvContent (fetch symbol ed today)⟩]))
    ∧ (((get_symbol_status fs root symbol stSize stMtime tzOff).available = false
        ∨ (get_symbol_status fs root symbol stSize stMtime tzOff).end_date = none
        ∨ (get_symbol_status fs root symbol stSize stMtime tzOff).end_date = some "") →
      update_symbol fetch fs root symbol today stSize stMtime tzOff
        = download_symbol fetch fs root symbol (some DEFAULT_START_DATE) none today
            stSize stMtime tzOff) := by
  constructor
  · intro ed hav hed hne
    have heq := update_symbol_resume fetch fs root symbol today stSize stMtime tzOff ed
      hav hed hne
    refine ⟨heq, fun hf => ?_⟩
    rw [heq]
    exact download_writes_fetched fetch fs root symbol (some ed) none today stSize stMtime
      tzOff hf
  · exact update_symbol_default fetch fs root symbol today stSize stMtime tzOff

/-- A fetcher returning one fixed candle, for the update witness. -/
def constFetch : String → String → String → List Candle := fun _ _ _ => [wCandle1]

theorem update_resumes_from_end_date_witness :
    ((get_symbol_status legacyFS "root" "SOLUSDT" 9 "mt" 0).available = true)
    ∧ ((get_symbol_status legacyFS "root" "SOLUSDT" 9 "mt" 0).end_date = some "2023-11-15")
    ∧ ("2023-11-15" : String) ≠ ""
    ∧ (update_symbol constFetch legacyFS "root" "SOLUSDT" "2024-06-01" 9 "mt" 0
        = download_symbol constFetch legacyFS "root" "SOLUSDT" (some "2023-11-15") none
            "2024-06-01" 9 "mt" 0
      ∧ (constFetch "SOLUSDT" "2023-11-15" "2024-06-01" ≠ [] →
        (update_symbol constFetch legacyFS "root" "SOLUSDT" "2024-06-01" 9 "mt" 0).1
            (dataPath "root" "SOLUSDT")
          = some [⟨pyLower "SOLUSDT" ++ ".csv",
              csvContent (constFetch "SOLUSDT" "2023-11-15" "2024-06-01")⟩])) :=
  ⟨by decide, by decide, by decide,
    (update_resumes_from_end_date constFetch legacyFS "root" "SOLUSDT" "2024-06-01"
      9 "mt" 0).1 "2023-11-15" (by decide) (by decide) (by decide)⟩

theorem dkf_mem (page : Nat → List Candle)
    (H : ∀ cur c, c ∈ page cur → cur ≤ c.timestamp_ms) :
    ∀ (f cur e : Nat) (c : Candle),
      c ∈ downloadKlinesFuel page f cur e → cur ≤ c.timestamp_ms := by
  intro f
  induction f with
  | zero => intro cur e c hc; cases hc
  | succ f ih =>
    intro cur e c hc
    simp only [downloadKlinesFuel] at hc
    split at hc
    · split at hc
      · cases hc
      · rename_i c0 cs heq
        rcases List.mem_append.mp hc with h1 | h2
        · exact H cur c (heq ▸ h1)
        · have hlast : (c0 :: cs).getLast (List.cons_ne_nil c0 cs) ∈ page cur := by
            rw [heq]
            exact List.getLast_mem _
          have hcur := H cur _ hlast
          have hrec := ih _ e c h2
          omega
    · cases hc

theorem dkf_fuel (page : Nat → List Candle)
    (H : ∀ cur c, c ∈ page cur → cur ≤ c.timestamp_ms) :
    ∀ (f g cur e : Nat), e - cur ≤ f → e - cur ≤ g →
      downloadKlinesFuel page f cur e = downloadKlinesFuel page g cur e := by
  intro f
  induction f with
  | zero =>
    intro g cur e hf _
    have hnl : ¬ cur < e := by omega
    cases g with
    | zero => rfl
    | succ g =>
      simp only [downloadKlinesFuel]
      rw [if_neg hnl]
  | succ f ih =>
    intro g cur e hf hg
    by_cases hlt : cur < e
    · cases g with
      | zero => omega
      | succ g =>
        simp only [downloadKlinesFuel]
        rw [if_pos hlt, if_pos hlt]
        cases hpage : page cur with
        | nil => rfl
        | cons c0 cs =>
          have hle : cur ≤ ((c0 :: cs).getLast (List.cons_ne_nil c0 cs)).timestamp_ms :=
            H cur _ (by rw [hpage]; exact List.getLast_mem _)
          show (c0 :: cs) ++ downloadKlinesFuel page f
              (((c0 :: cs).getLast (List.cons_ne_nil c0 cs)).timestamp_ms + 1) e
            = (c0 :: cs) ++ downloadKlinesFuel page g
              (((c0 :: cs).getLast (List.cons_ne_nil c0 cs)).timestamp_ms + 1) e
          congr 1
          exact ih g (((c0 :: cs).getLast (List.cons_ne_nil c0 cs)).timestamp_ms + 1) e
            (by omega) (by omega)
    · cases g with
      | zero =>
        simp only [downloadKlinesFuel]
        rw [if_neg hlt]
      | succ g =>
        simp only [downloadKlinesFuel]
        rw [if_neg hlt, if_neg hlt]

/-- C7: pagination makes forward progress and terminates.  Under the
precondition that every candle a page returns has open time at least the
requested `startTime`, the fetch satisfies the source's loop equation — the
next page's `startTime` is the last returned candle's open time plus one, and
the loop stops exactly when a page returns zero rows or the advancing
`startTime` reaches or exceeds the epoch bound — the result is the
concatenation of the first page with the remaining fetch, every returned
candle's open time is at least `start_ts`, and every candle of the remaining
fetch is strictly newer than the boundary row, so no boundary row is
duplicated. -/
theorem pagination_terminates_concat (page : Nat → List Candle)
    (H : ∀ cur c, c ∈ page cur → cur ≤ c.timestamp_ms) (start_ts end_ts : Nat) :
    (download_binance_klines page start_ts end_ts
      = if start_ts < end_ts then
          match page start_ts with
          | [] => []
          | c :: cs => (c :: cs) ++ download_binance_klines page
              (((c :: cs).getLast (List.cons_ne_nil c cs)).timestamp_ms + 1) end_ts
        else [])
    ∧ (∀ c ∈ download_binance_klines page start_ts end_ts, start_ts ≤ c.timestamp_ms)
    ∧ (∀ c cs, page start_ts = c :: cs →
        ∀ c' ∈ download_binance_klines page
            (((c :: cs).getLast (List.cons_ne_nil c cs)).timestamp_ms + 1) end_ts,
          ((c :: cs).getLast (List.cons_ne_nil c cs)).timestamp_ms < c'.timestamp_ms) := by
  refine ⟨?_, ?_, ?_⟩
  · unfold download_binance_klines
    by_cases hlt : start_ts < end_ts
    · obtain ⟨k, hk⟩ : ∃ k, end_ts - start_ts = k + 1 := ⟨end_ts - start_ts - 1, by omega⟩
      rw [hk]
      simp only [downloadKlinesFuel]
      rw [if_pos hlt, if_pos hlt]
      cases hpage : page start_ts with
      | nil => rfl
      | cons c0 cs =>
        have hle : start_ts ≤ ((c0 :: cs).getLast (List.cons_ne_nil c0 cs)).timestamp_ms :=
          H start_ts _ (by rw [hpage]; exact List.getLast_mem _)
        show (c0 :: cs) ++ downloadKlinesFuel page k
            (((c0 :: cs).getLast (List.cons_ne_nil c0 cs)).timestamp_ms + 1) end_ts
          = (c0 :: cs) ++ downloadKlinesFuel page
            (end_ts - (((c0 :: cs).getLast (List.cons_ne_nil c0 cs)).timestamp_ms + 1))
            (((c0 :: cs).getLast (List.cons_ne_nil c0 cs)).timestamp_ms + 1) end_ts
        congr 1
        exact dkf_fuel page H k
          (end_ts - (((c0 :: cs).getLast (List.cons_ne_nil c0 cs)).timestamp_ms + 1))
          (((c0 :: cs).getLast (List.cons_ne_nil c0 cs)).timestamp_ms + 1) end_ts
          (by omega) (by omega)
    · rw [if_neg hlt]
      have h0 : end_ts - start_ts = 0 := by omega
      rw [h0]
      rfl
  · exact fun c hc => dkf_mem page H (end_ts - start_ts) start_ts end_ts c hc
  · intro c cs hpage c' hc'
    have hrec := dkf_mem page H _ _ end_ts c' hc'
    omega

/-- A three-page oracle for the pagination witness. -/
def pageW : Nat → List Candle := fun cur => if cur < 3 then [⟨cur, 1, 1, 1, 1⟩] else []

/-- `pageW` honours the requested start time. -/
theorem pageW_H : ∀ cur c, c ∈ pageW cur → cur ≤ c.timestamp_ms := by
  intro cur c h
  unfold pageW at h
  split at h
  · rcases List.mem_singleton.mp h with rfl
    exact le_rfl
  · cases h

theorem pagination_terminates_concat_witness :
    (∀ cur c, c ∈ pageW cur → cur ≤ c.timestamp_ms)
    ∧ ((download_binance_klines pageW 0 5
        = if 0 < 5 then
            match pageW 0 with
            | [] => []
            | c :: cs => (c :: cs) ++ download_binance_klines pageW
                (((c :: cs).getLast (List.cons_ne_nil c cs)).timestamp_ms + 1) 5
          else [])
      ∧ (∀ c ∈ download_binance_klines pageW 0 5, 0 ≤ c.timestamp_ms)
      ∧ (∀ c cs, pageW 0 = c :: cs →
          ∀ c' ∈ download_binance_klines pageW
              (((c :: cs).getLast (List.cons_ne_nil c cs)).timestamp_ms + 1) 5,
            ((c :: cs).getLast (List.cons_ne_nil c cs)).timestamp_ms < c'.timestamp_ms)) :=
  ⟨pageW_H, pagination_terminates_concat pageW pageW_H 0 5⟩

/-! ## Lemmas for the format converter -/

theorem splitlinesAux_mem_noterm (cs acc : List Char)
    (hacc : ∀ c ∈ acc, c ≠ '\r' ∧ c ≠ '\n') :
    ∀ l ∈ splitlinesAux cs acc, ∀ c ∈ l, c ≠ '\r' ∧ c ≠ '\n' := by
  induction cs, acc using splitlinesAux.induct with
  | case1 => intro l hl; cases hl
  | case2 acc h =>
    intro l hl c hc
    rw [splitlinesAux.eq_2 acc h] at hl
    rcases List.mem_singleton.mp hl with rfl
    exact hacc c (List.mem_reverse.mp hc)
  | case3 acc rest ih =>
    intro l hl c hc
    rw [splitlinesAux.eq_3] at hl
    rcases List.mem_cons.mp hl with rfl | hl
    · exact hacc c (List.mem_reverse.mp hc)
    · exact ih (by simp) l hl c hc
  | case4 rest acc h ih =>
    intro l hl c hc
    rw [splitlinesAux.eq_4 _ _ (by assumption)] at hl
    rcases List.mem_cons.mp hl with rfl | hl
    · exact hacc c (List.mem_reverse.mp hc)
    · exact ih (by simp) l hl c hc
  | case5 acc rest ih =>
    intro l hl c hc
    rw [splitlinesAux.eq_5] at hl
    rcases List.mem_cons.mp hl with rfl | hl
    · exact hacc c (List.mem_reverse.mp hc)
    · exact ih (by simp) l hl c hc
  | case6 c rest acc h1 h2 h3 ih =>
    intro l hl ch hch
    rw [splitlinesAux.eq_6 _ _ _ (by assumption) (by assumption) (by assumption)] at hl
    refine ih ?_ l hl ch hch
    intro x hx
    rcases List.mem_cons.mp hx with rfl | hx
    · exact ⟨fun hh => h2 hh, fun hh => h3 hh⟩
    · exact hacc x hx

theorem pySplitlines_mem_noterm (cs : List Char) :
    ∀ l ∈ pySplitlines cs, ∀ c ∈ l, c ≠ '\r' ∧ c ≠ '\n' :=
  splitlinesAux_mem_noterm cs [] (by simp)

theorem splitAux_mem_chars (sep : Char) (cs : List Char) :
    ∀ (acc part : List Char), part ∈ splitAux sep cs acc → ∀ c ∈ part, c ∈ cs ∨ c ∈ acc := by
  induction cs with
  | nil =>
    intro acc part hp c hc
    simp only [splitAux] at hp
    rcases List.mem_singleton.mp hp with rfl
    exact Or.inr (List.mem_reverse.mp hc)
  | cons c0 rest ih =>
    intro acc part hp c hc
    simp only [splitAux] at hp
    split at hp
    · rcases List.mem_cons.mp hp with rfl | hp
      · exact Or.inr (List.mem_reverse.mp hc)
      · rcases ih [] part hp c hc with hmem | hmem
        · exact Or.inl (List.mem_cons_of_mem _ hmem)
        · cases hmem
    · rcases ih (c0 :: acc) part hp c hc with hmem | hmem
      · exact Or.inl (List.mem_cons_of_mem _ hmem)
      · rcases List.mem_cons.mp hmem with rfl | hmem
        · exact Or.inl (List.mem_cons_self _ _)
        · exact Or.inr hmem

theorem pySplit_mem_chars (sep : Char) (cs part : List Char)
    (hp : part ∈ pySplit sep cs) : ∀ c ∈ part, c ∈ cs := by
  intro c hc
  rcases splitAux_mem_chars sep cs [] part hp c hc with hmem | hmem
  · exact hmem
  · cases hmem

theorem pyTrim_subset (cs : List Char) : ∀ c ∈ pyTrim cs, c ∈ cs := by
  intro c hc
  unfold pyTrim at hc
  rw [List.mem_reverse] at hc
  have h1 := (List.dropWhile_sublist Char.isWhitespace).subset hc
  rw [List.mem_reverse] at h1
  exact (List.dropWhile_sublist Char.isWhitespace).subset h1

theorem pad2_digits (n : Nat) : ∀ c ∈ pad2 n, c.isDigit = true := by
  intro c hc
  unfold pad2 at hc
  split at hc
  · rcases List.mem_cons.mp hc with rfl | hc
    · decide
    · exact natToStr_digits n c hc
  · exact natToStr_digits n c hc

theorem pad4_digits (n : Nat) : ∀ c ∈ pad4 n, c.isDigit = true := by
  intro c hc
  unfold pad4 at hc
  split at hc
  · rcases List.mem_cons.mp hc with rfl | hc
    · decide
    · rcases List.mem_cons.mp hc with rfl | hc
      · decide
      · rcases List.mem_cons.mp hc with rfl | hc
        · decide
        · exact natToStr_digits n c hc
  · split at hc
    · rcases List.mem_cons.mp hc with rfl | hc
      · decide
      · rcases List.mem_cons.mp hc with rfl | hc
        · decide
        · exact natToStr_digits n c hc
    · split at hc
      · rcases List.mem_cons.mp hc with rfl | hc
        · decide
        · exact natToStr_digits n c hc
      · exact natToStr_digits n c hc

theorem convert_timestamp_class (ts : Int) :
    ∀ c ∈ convert_timestamp ts, c.isDigit = true ∨ c = ' ' ∨ c = ':' := by
  intro c hc
  unfold convert_timestamp at hc
  rcases List.mem_append.mp hc with hc | hc
  · rcases List.mem_append.mp hc with hc | hc
    · rcases List.mem_append.mp hc with hc | hc
      · exact Or.inl (pad4_digits _ c hc)
      · exact Or.inl (pad2_digits _ c hc)
    · exact Or.inl (pad2_digits _ c hc)
  · rcases List.mem_cons.mp hc with rfl | hc
    · exact Or.inr (Or.inl rfl)
    · rcases List.mem_append.mp hc with hc | hc
      · exact Or.inl (pad2_digits _ c hc)
      · rcases List.mem_cons.mp hc with rfl | hc
        · exact Or.inr (Or.inr rfl)
        · exact Or.inl (pad2_digits _ c hc)

theorem convert_timestamp_has_space (ts : Int) : ' ' ∈ convert_timestamp ts := by
  unfold convert_timestamp
  exact List.mem_append_right _ (List.mem_cons_self _ _)

theorem convert_timestamp_no_comma (ts : Int) : (',' : Char) ∉ convert_timestamp ts := by
  intro hmem
  rcases convert_timestamp_class ts ',' hmem with h | h | h
  · exact absurd h (by decide)
  · exact absurd h (by decide)
  · exact absurd h (by decide)

theorem convert_timestamp_noterm (ts : Int) :
    ∀ c ∈ convert_timestamp ts, c ≠ '\r' ∧ c ≠ '\n' := by
  intro c hc
  rcases convert_timestamp_class ts c hc with h | rfl | rfl
  · exact ⟨(isDigit_ne_chars c h).2.1, (isDigit_ne_chars c h).2.2.1⟩
  · exact ⟨by decide, by decide⟩
  · exact ⟨by decide, by decide⟩

theorem convert_timestamp_not_digits (ts : Int) :
    ¬ pyIsdigit (convert_timestamp ts) = true := by
  intro htrue
  unfold pyIsdigit at htrue
  rw [Bool.and_eq_true] at htrue
  have hsp := List.all_eq_true.mp htrue.2 ' ' (convert_timestamp_has_space ts)
  exact absurd hsp (by decide)

theorem convert_line_shape (line out : List Char)
    (hline : ∀ c ∈ line, c ≠ '\r' ∧ c ≠ '\n')
    (h : convert_line line = some out) :
    (∃ ts : Int, field0 out = convert_timestamp ts)
    ∧ out ≠ []
    ∧ (∀ c ∈ out, c ≠ '\r' ∧ c ≠ '\n')
    ∧ ¬ pyIsdigit (field0 out) = true := by
  simp only [convert_line] at h
  split at h
  · cases h
  · split at h
    · cases h
    · rename_i ts hts
      rw [Option.some.injEq] at h
      subst h
      have hparts : ∀ part ∈ pySplit ',' (pyTrim line), ∀ c ∈ part, c ≠ '\r' ∧ c ≠ '\n' :=
        fun part hp c hc => hline c (pyTrim_subset line c (pySplit_mem_chars ',' _ part hp c hc))
      have hfield0 : field0 (convert_timestamp ts ++
          ',' :: (pyJoin [','] (((pySplit ',' (pyTrim line)).drop 1).take 4) ++
            ',' :: '0' :: ',' :: (pyJoin [','] (((pySplit ',' (pyTrim line)).drop 5).take 4)
              ++ [',', '0']))) = convert_timestamp ts :=
        field0_append _ _ (convert_timestamp_no_comma ts)
      refine ⟨⟨ts, hfield0⟩, ?_, ?_, ?_⟩
      · intro h0
        rw [List.append_eq_nil] at h0
        cases h0.2
      · intro c hc
        rcases List.mem_append.mp hc with hc | hc
        · exact convert_timestamp_noterm ts c hc
        · rcases List.mem_cons.mp hc with rfl | hc
          · exact ⟨by decide, by decide⟩
          · rcases List.mem_append.mp hc with hc | hc
            · rcases mem_pyJoin [','] _ c hc with ⟨f, hf, hcf⟩ | hc
              · exact hparts f (List.drop_subset _ _ (List.take_subset _ _ hf)) c hcf
              · rcases List.mem_singleton.mp hc with rfl
                exact ⟨by decide, by decide⟩
            · rcases List.mem_cons.mp hc with rfl | hc
              · exact ⟨by decide, by decide⟩
              · rcases List.mem_cons.mp hc with rfl | hc
                · exact ⟨by decide, by decide⟩
                · rcases List.mem_cons.mp hc with rfl | hc
                  · exact ⟨by decide, by decide⟩
                  · rcases List.mem_append.mp hc with hc | hc
                    · rcases mem_pyJoin [','] _ c hc with ⟨f, hf, hcf⟩ | hc
                      · exact hparts f (List.drop_subset _ _ (List.take_subset _ _ hf)) c hcf
                      · rcases List.mem_singleton.mp hc with rfl
                        exact ⟨by decide, by decide⟩
                    · rcases List.mem_cons.mp hc with rfl | hc
                      · exact ⟨by decide, by decide⟩
                      · rcases List.mem_singleton.mp hc with rfl
                        exact ⟨by decide, by decide⟩
      · rw [hfield0]
        exact convert_timestamp_not_digits ts

/-- C9: a well-formed legacy row — numeric epoch-ms timestamp followed by four
bid and four ask fields — is converted to the current row whose date-key is
`convert_timestamp` of that epoch, whose eight bid/ask fields are carried over
unchanged, and which has `bidSize = 0` inserted after the bid block and
`askSize = 0` after the ask block; a row with fewer than 9 comma fields or a
non-numeric timestamp yields `None`, and such a row is dropped from the
conversion while the remaining rows are processed unchanged. -/
theorem convert_line_spec (line : List Char) :
    (∀ (ts : Int) (p0 p1 p2 p3 p4 p5 p6 p7 p8 : List Char) (rest : List (List Char)),
      pySplit ',' (pyTrim line) = p0 :: p1 :: p2 :: p3 :: p4 :: p5 :: p6 :: p7 :: p8 :: rest →
      pyInt? p0 = some ts →
      convert_line line = some (convert_timestamp ts ++
        ',' :: (pyJoin [','] [p1, p2, p3, p4] ++
          ',' :: '0' :: ',' :: (pyJoin [','] [p5, p6, p7, p8] ++ [',', '0']))))
    ∧ ((pySplit ',' (pyTrim line)).length < 9 ∨
        pyInt? ((pySplit ',' (pyTrim line)).headD []) = none →
      convert_line line = none)
    ∧ (∀ (la lb : List (List Char)), convert_line line = none →
      convertedLines (la ++ line :: lb) = convertedLines (la ++ lb)) := by
  refine ⟨?_, ?_, ?_⟩
  · intro ts p0 p1 p2 p3 p4 p5 p6 p7 p8 rest hsplit hts
    simp only [convert_line, hsplit]
    rw [if_neg (by simp)]
    simp only [List.headD_cons, hts]
    simp [List.take, List.drop]
  · intro h
    simp only [convert_line]
    rcases h with h | h
    · rw [if_pos h]
    · by_cases hl : (pySplit ',' (pyTrim line)).length < 9
      · rw [if_pos hl]
      · rw [if_neg hl, h]
  · intro la lb h
    unfold convertedLines
    rw [List.filterMap_append, List.filterMap_append, List.filterMap_cons]
    have hf : (if pyTrim line ≠ [] then convert_line line else none) = none := by
      split
      · exact h
      · rfl
    rw [hf]

theorem convert_line_spec_witness :
    convert_line ("1700000000000,100,101,99,100.5,100.01,101.01,99.01,100.51".data)
      = some ("20231114 22:13,100,101,99,100.5,0,100.01,101.01,99.01,100.51,0".data)
    ∧ convert_line ("abc,1,2".data) = none
    ∧ convertedLines (["1700000000000,1,2,3,4,5,6,7,8".data] ++ "abc,1,2".data :: [])
      = convertedLines (["1700000000000,1,2,3,4,5,6,7,8".data] ++ []) := by
  refine ⟨?_, ?_, ?_⟩
  · have h := (convert_line_spec
        ("1700000000000,100,101,99,100.5,100.01,101.01,99.01,100.51".data)).1
      1700000000000 ("1700000000000".data) ("100".data) ("101".data) ("99".data)
      ("100.5".data) ("100.01".data) ("101.01".data) ("99.01".data) ("100.51".data) []
      (by decide) (by decide)
    exact h.trans (by decide)
  · exact (convert_line_spec ("abc,1,2".data)).2.1 (Or.inl (by decide))
  · exact (convert_line_spec ("abc,1,2".data)).2.2
      ["1700000000000,1,2,3,4,5,6,7,8".data] [] (by decide)

theorem converted_skip (a a' : Archive) (h : convert_zip_file a = some a') :
    convert_zip_file a' = none := by
  match a with
  | [] => cases h
  | e :: tail =>
    simp only [convert_zip_file] at h
    cases hlines : pySplitlines e.content with
    | nil =>
      rw [hlines] at h
      simp [convertedLines] at h
    | cons l0 ls =>
      simp only [hlines] at h
      by_cases hdig : ¬ pyIsdigit (field0 l0)
      · rw [if_pos hdig] at h
        cases h
      · rw [if_neg hdig] at h
        by_cases hconv : convertedLines (l0 :: ls) = []
        · rw [if_pos hconv] at h
          cases h
        · rw [if_neg hconv] at h
          rw [Option.some.injEq] at h
          subst h
          have hshape : ∀ out ∈ convertedLines (l0 :: ls),
              out ≠ [] ∧ (∀ c ∈ out, c ≠ '\r' ∧ c ≠ '\n')
              ∧ ¬ pyIsdigit (field0 out) = true := by
            intro out hout
            rcases List.mem_filterMap.mp hout with ⟨line, hline, hf⟩
            have hcl : convert_line line = some out := by
              by_cases ht : pyTrim line ≠ []
              · rw [if_pos ht] at hf
                exact hf
              · rw [if_neg ht] at hf
                cases hf
            have hnoterm : ∀ c ∈ line, c ≠ '\r' ∧ c ≠ '\n' :=
              pySplitlines_mem_noterm e.content line (hlines ▸ hline)
            obtain ⟨_, h1, h2, h3⟩ := convert_line_shape line out hnoterm hcl
            exact ⟨h1, h2, h3⟩
          have hsl : pySplitlines (pyJoin ['\n'] (convertedLines (l0 :: ls)))
              = convertedLines (l0 :: ls) :=
            pySplitlines_pyJoin _ hconv
              (fun x hx => ⟨(hshape x hx).1, (hshape x hx).2.1⟩)
          cases hcs : convertedLines (l0 :: ls) with
          | nil => cases hconv hcs
          | cons o0 os =>
            have h3 : ¬ pyIsdigit (field0 o0) = true :=
              (hshape o0 (by rw [hcs]; exact List.mem_cons_self _ _)).2.2
            rw [hcs] at hsl
            simp only [convert_zip_file, hsl]
            rw [if_pos h3]

/-- C5: `convert_zip_file` is idempotent on the observable archive: running the
converter a second time after a first in-place run leaves the archive
byte-identical, because the second run reads the first converted line's first
comma field (a `yyyyMMdd HH:mm` date-key, not purely numeric) and skips as a
no-op. -/
theorem convert_idempotent (a : Archive) :
    applyConvert (applyConvert a) = applyConvert a := by
  unfold applyConvert
  cases hcv : convert_zip_file a with
  | none =>
    simp only [Option.getD_none]
    rw [hcv]
    rfl
  | some a' =>
    simp only [Option.getD_some]
    rw [converted_skip a a' hcv]
    rfl

theorem get_symbol_status_symbol (fs : FS) (root symbol : String)
    (stSize : Nat) (stMtime : String) (tzOff : Int) :
    (get_symbol_status fs root symbol stSize stMtime tzOff).symbol = pyUpper symbol := by
  simp only [get_symbol_status]
  split
  · rfl
  · split
    · rfl
    · rfl

theorem download_symbol_symbol (fetch : String → String → String → List Candle)
    (fs : FS) (root symbol : String) (sd ed : Option String) (today : String)
    (stSize : Nat) (stMtime : String) (tzOff : Int) :
    (download_symbol fetch fs root symbol sd ed today stSize stMtime tzOff).2.symbol
      = pyUpper symbol :=
  get_symbol_status_symbol _ root symbol stSize stMtime tzOff

theorem update_symbol_symbol (fetch : String → String → String → List Candle)
    (fs : FS) (root symbol today : String)
    (stSize : Nat) (stMtime : String) (tzOff : Int) :
    (update_symbol fetch fs root symbol today stSize stMtime tzOff).2.symbol
      = pyUpper symbol :=
  download_symbol_symbol fetch fs root symbol _ none today stSize stMtime tzOff

theorem download_fold_mem (fetch : String → String → String → List Candle)
    (root today : String) (stSize : Nat) (stMtime : String) (tzOff : Int) :
    ∀ (syms : List String) (fs : FS) (acc : List SymbolStatus),
      ∀ st ∈ (syms.foldl
          (fun acc symbol =>
            let r := download_symbol fetch acc.1 root symbol none none today stSize stMtime tzOff
            (r.1, acc.2 ++ [r.2])) (fs, acc)).2,
        st ∈ acc ∨ ∃ s ∈ syms, st.symbol = pyUpper s := by
  intro syms
  induction syms with
  | nil =>
    intro fs acc st hst
    exact Or.inl hst
  | cons s rest ih =>
    intro fs acc st hst
    simp only [List.foldl_cons] at hst
    rcases ih _ _ st hst with hmem | ⟨q, hq, hqe⟩
    · rcases List.mem_append.mp hmem with hmem | hmem
      · exact Or.inl hmem
      · have he := List.mem_singleton.mp hmem
        subst he
        exact Or.inr ⟨s, List.mem_cons_self _ _,
          download_symbol_symbol fetch fs root s none none today stSize stMtime tzOff⟩
    · exact Or.inr ⟨q, List.mem_cons_of_mem _ hq, hqe⟩

theorem update_fold_mem (fetch : String → String → String → List Candle)
    (root today : String) (stSize : Nat) (stMtime : String) (tzOff : Int) :
    ∀ (syms : List String) (fs : FS) (acc : List SymbolStatus),
      ∀ st ∈ (syms.foldl
          (fun acc symbol =>
            let r := update_symbol fetch acc.1 root symbol today stSize stMtime tzOff
            (r.1, acc.2 ++ [r.2])) (fs, acc)).2,
        st ∈ acc ∨ ∃ s ∈ syms, st.symbol = pyUpper s := by
  intro syms
  induction syms with
  | nil =>
    intro fs acc st hst
    exact Or.inl hst
  | cons s rest ih =>
    intro fs acc st hst
    simp only [List.foldl_cons] at hst
    rcases ih _ _ st hst with hmem | ⟨q, hq, hqe⟩
    · rcases List.mem_append.mp hmem with hmem | hmem
      · exact Or.inl hmem
      · have he := List.mem_singleton.mp hmem
        subst he
        exact Or.inr ⟨s, List.mem_cons_self _ _,
          update_symbol_symbol fetch fs root s today stSize stMtime tzOff⟩
    · exact Or.inr ⟨q, List.mem_cons_of_mem _ hq, hqe⟩

/-- C10: every `SymbolStatus` returned by any operation carries the uppercase
form of the queried symbol: `get_symbol_status` in all branches (missing,
readable, corrupt archive alike), `download_symbol`, `update_symbol`, every
status produced by `download_missing` (uppercase of some symbol that
`check_symbols` reported missing) and every status produced by `update_all`
(uppercase of some enumerated symbol). -/
theorem status_symbol_uppercase (fetch : String → String → String → List Candle)
    (fs : FS) (root symbol today : String) (symbols : List String)
    (sd ed : Option String) (stSize : Nat) (stMtime : String) (tzOff : Int) :
    (get_symbol_status fs root symbol stSize stMtime tzOff).symbol = pyUpper symbol
    ∧ (download_symbol fetch fs root symbol sd ed today stSize stMtime tzOff).2.symbol
        = pyUpper symbol
    ∧ (update_symbol fetch fs root symbol today stSize stMtime tzOff).2.symbol
        = pyUpper symbol
    ∧ (∀ st ∈ (download_missing fetch fs root symbols today stSize stMtime tzOff).2,
        ∃ q ∈ (check_symbols fs root symbols).2, st.symbol = pyUpper q)
    ∧ (∀ st ∈ (update_all fetch fs root symbols today stSize stMtime tzOff).2,
        ∃ q ∈ symbols, st.symbol = pyUpper q) := by
  refine ⟨get_symbol_status_symbol fs root symbol stSize stMtime tzOff,
    download_symbol_symbol fetch fs root symbol sd ed today stSize stMtime tzOff,
    update_symbol_symbol fetch fs root symbol today stSize stMtime tzOff, ?_, ?_⟩
  · intro st hst
    have h := download_fold_mem fetch root today stSize stMtime tzOff
      (check_symbols fs root symbols).2 fs [] st hst
    rcases h with h | h
    · cases h
    · exact h
  · intro st hst
    have h := update_fold_mem fetch root today stSize stMtime tzOff symbols fs [] st hst
    rcases h with h | h
    · cases h
    · exact h

theorem status_symbol_uppercase_witness :
    (∃ q ∈ (check_symbols emptyFS "r" ["btc"]).2,
      ((download_missing (fun _ _ _ => []) emptyFS "r" ["btc"] "2024-01-02" 0 "" 0).2.headD
        { symbol := "", available := false }).symbol = pyUpper q)
    ∧ (∃ q ∈ ["btc"],
      ((update_all (fun _ _ _ => []) emptyFS "r" ["btc"] "2024-01-02" 0 "" 0).2.headD
        { symbol := "", available := false }).symbol = pyUpper q) := by
  refine ⟨?_, ?_⟩
  · exact (status_symbol_uppercase (fun _ _ _ => []) emptyFS "r" "btc" "2024-01-02" ["btc"]
      none none 0 "" 0).2.2.2.1 _ (by decide)
  · exact (status_symbol_uppercase (fun _ _ _ => []) emptyFS "r" "btc" "2024-01-02" ["btc"]
      none none 0 "" 0).2.2.2.2 _ (by decide)
